import Mathlib

/-!
# Verification of the Lumi shell language core

A shallow embedding of the Lumi shell's lexer (`src/shell/parsing.rs`,
`ShellLexer`), parser (`ShellParser`), and evaluator
(`src/shell/segments.rs`) together with proofs about the specification's
claims.  Machinery shared by lexer and parser (`src/parsing.rs`:
`Location`, `TextSpan`, `Scanner`, `TokenStream`) is embedded first.

Rust `Result`-returning functions are modelled with an explicit outcome
type `Res` that also records fuel exhaustion (the Rust loops and
recursion are modelled as fueled recursion) and panics (`unwrap` on
`None`, `unreachable!`).
-/

namespace Lumi

/-- Outcome of an embedded fallible computation.  `fuelOut` models
exhaustion of the artificial recursion fuel; `panicked` models a Rust
panic (`Option::unwrap` on `None`, `unreachable!`). -/
inductive Res (ε : Type) (α : Type) where
  | ok (a : α)
  | err (e : ε)
  | fuelOut
  | panicked
deriving Repr

def Res.bind {ε α β : Type} : Res ε α → (α → Res ε β) → Res ε β
  | .ok a, f => f a
  | .err e, _ => .err e
  | .fuelOut, _ => .fuelOut
  | .panicked, _ => .panicked

instance {ε : Type} : Monad (Res ε) where
  pure := Res.ok
  bind := Res.bind

/-! ## `src/parsing.rs`: Location, TextSpan, Scanner -/

/-- `parsing.rs` `Location`: index is 0-based, line/column 1-based. -/
structure Location where
  index : Nat
  line : Nat
  column : Nat
deriving Repr, DecidableEq

/-- `parsing.rs` `TextSpan`. -/
structure TextSpan where
  start : Location
  stop : Location
deriving Repr, DecidableEq

/-- `TextSpan::length`. -/
def TextSpan.length (s : TextSpan) : Nat := s.stop.index - s.start.index

/-- `parsing.rs` `Scanner`: a `BufferedPeekable<char>` (modelled as the
list of remaining characters), the mark stack, and the current
position. -/
structure Scanner where
  chars : List Char
  markers : List Location
  index : Nat
  line : Nat
  column : Nat
deriving Repr, DecidableEq

namespace Scanner

/-- `Scanner::new(source, 0, 1, 1)` as used by `ShellLexer::new`. -/
def new (source : List Char) : Scanner :=
  { chars := source, markers := [], index := 0, line := 1, column := 1 }

/-- `Scanner::current_pos`. -/
def currentPos (s : Scanner) : Location :=
  { index := s.index, line := s.line, column := s.column }

/-- `Scanner::push_mark`. -/
def pushMark (s : Scanner) : Scanner :=
  { s with markers := s.currentPos :: s.markers }

/-- `Scanner::pop_mark`. -/
def popMark (s : Scanner) : Option Location × Scanner :=
  match s.markers with
  | [] => (none, s)
  | m :: rest => (some m, { s with markers := rest })

/-- `Scanner::pop_span().unwrap()`.  Every call site in the lexer runs
with a non-empty mark stack; the default (using the current position as
start) covers the unreachable empty-stack case. -/
def popSpan (s : Scanner) : TextSpan × Scanner :=
  match s.markers with
  | [] => ({ start := s.currentPos, stop := s.currentPos }, s)
  | m :: rest => ({ start := m, stop := s.currentPos }, { s with markers := rest })

/-- `Scanner::is_empty`. -/
def isEmpty (s : Scanner) : Bool := s.chars.isEmpty

/-- `Scanner::peek`. -/
def peek (s : Scanner) : Option Char := s.chars.head?

/-- `Scanner::peek_ahead`. -/
def peekAhead (s : Scanner) (distance : Nat) : Option Char := s.chars.get? distance

/-- `Scanner::consume`: newline increments line and resets column to 0;
then index and column are incremented for every consumed character. -/
def consume (s : Scanner) : Option (Char × Scanner) :=
  match s.chars with
  | [] => none
  | c :: rest =>
    let line := if c = '\n' then s.line + 1 else s.line
    let column := if c = '\n' then 0 else s.column
    some (c, { s with chars := rest, index := s.index + 1, line := line, column := column + 1 })

/-- One `consume` step when the scanner is known non-empty (the
`consume().unwrap()` pattern); identical to `consume` on the `c :: rest`
case. -/
def advance (s : Scanner) (c : Char) (rest : List Char) : Scanner :=
  { s with chars := rest, index := s.index + 1,
           line := if c = '\n' then s.line + 1 else s.line,
           column := (if c = '\n' then 0 else s.column) + 1 }

theorem consume_eq_advance (s : Scanner) (c : Char) (rest : List Char)
    (h : s.chars = c :: rest) : s.consume = some (c, s.advance c rest) := by
  simp [consume, advance, h]

/-- `Scanner::is_next`: character-wise lookahead equality. -/
def isNext (s : Scanner) (w : List Char) : Bool := w.isPrefixOf s.chars

/-- `Scanner::take_if_next`: consume `w.length` characters when `w` is
next (the punctuation keys are ASCII, so the Rust byte length equals the
character count). -/
def takeIfNext (s : Scanner) (w : List Char) : Option (List Char × Scanner) :=
  if s.isNext w then
    let rec go : Nat → Scanner → List Char × Scanner
      | 0, s => ([], s)
      | n + 1, s =>
        match s.chars with
        | [] => ([], s)
        | c :: rest =>
          let (l, s') := go n (s.advance c rest)
          (c :: l, s')
    some (go w.length s)
  else none

/-- The loop of `Scanner::skip_while`, recursing structurally on the
scanner's own character list (the list argument always equals
`s.chars`, which `advance` maintains). -/
def skipWhileGo (p : Char → Bool) : List Char → Scanner → Scanner
  | [], s => s
  | c :: rest, s =>
    if p c then skipWhileGo p rest (s.advance c rest) else s

/-- `Scanner::skip_while`. -/
def skipWhile (p : Char → Bool) (s : Scanner) : Scanner :=
  skipWhileGo p s.chars s

/-- The loop of `Scanner::take_while`, structured like `skipWhileGo`. -/
def takeWhileGo (p : Char → Bool) : List Char → Scanner → List Char × Scanner
  | [], s => ([], s)
  | c :: rest, s =>
    if p c then
      let (l, s') := takeWhileGo p rest (s.advance c rest)
      (c :: l, s')
    else ([], s)

/-- `Scanner::take_while`. -/
def takeWhile (p : Char → Bool) (s : Scanner) : List Char × Scanner :=
  takeWhileGo p s.chars s

/-- The state after one `consume` of the character `c`, expressed
without the `rest` argument (`chars` becomes its own tail); used to
describe loop invariants. -/
def stepped (sc : Scanner) (c : Char) : Scanner :=
  { sc with chars := sc.chars.tail, index := sc.index + 1,
            line := if c = '\n' then sc.line + 1 else sc.line,
            column := (if c = '\n' then 0 else sc.column) + 1 }

/-- The state after consuming a list of characters one by one. -/
def steppedAll (sc : Scanner) : List Char → Scanner
  | [] => sc
  | c :: cs => (sc.stepped c).steppedAll cs

end Scanner

/-! ## `src/shell/parsing.rs`: tokens and lexer -/

mutual

/-- `ShellTokenKind` from `shell/parsing.rs`. -/
inductive ShellTokenKind where
  | str (s : String)
  | interp (children : List ShellToken)
  | dollar
  | semi
  | amp
  | pipe
  | stdIn
  | stdOut
  | stdErr
  | stdBoth
  | lparen
  | rparen
  | endOfInput

/-- `ShellToken`: a kind together with its span. -/
inductive ShellToken where
  | mk (kind : ShellTokenKind) (span : TextSpan)

end

/-- `ShellToken::kind`. -/
def ShellToken.kind : ShellToken → ShellTokenKind
  | ⟨k, _⟩ => k

/-- `ShellToken::span`. -/
def ShellToken.span : ShellToken → TextSpan
  | ⟨_, sp⟩ => sp

/-- `ShellTokenKind`'s `ToString` implementation. -/
def ShellTokenKind.toText : ShellTokenKind → String
  | .str x => x
  | .interp _ => "string interpolation"
  | .dollar => "$"
  | .semi => ";"
  | .amp => "&"
  | .pipe => "|"
  | .stdIn => "<"
  | .stdOut => ">"
  | .stdErr => ">>"
  | .stdBoth => ">>>"
  | .lparen => "("
  | .rparen => ")"
  | .endOfInput => "<end-of-input>"

/-- `ShellToken`'s `ToString` (delegates to the kind). -/
def ShellToken.toText (t : ShellToken) : String := t.kind.toText

/-- `LexerError` from `shell/parsing.rs`.  The codepoint is the Rust
`c as u16` (truncating cast). -/
inductive LexerError where
  | unexpectedChar (character : Char) (codepoint : Nat) (span : TextSpan)
  | unexpectedEOI (reason : String) (span : TextSpan)
deriving Repr

/-- `LexerMode`. -/
inductive LexerMode where
  | normal
  | interp
deriving Repr, DecidableEq

/-- The character classes of `ShellLexer`.  `special` is the fixed set
inserted in `ShellLexer::new`. -/
def isSpecial (c : Char) : Bool :=
  c = '$' || c = ';' || c = '&' || c = '|' || c = '<' || c = '>' ||
  c = '"' || c = '\'' || c = '`' || c = '(' || c = ')' || c = '{' || c = '}'

/-- Rust `char::is_whitespace`: the Unicode White_Space property. -/
def rustIsWhitespace (c : Char) : Bool :=
  let n := c.toNat
  (9 ≤ n && n ≤ 13) || n = 32 || n = 133 || n = 160 || n = 5760 ||
  (8192 ≤ n && n ≤ 8202) || n = 8232 || n = 8233 || n = 8239 || n = 8287 || n = 12288

/-- Rust `char::is_control`: the Unicode Cc category. -/
def rustIsControl (c : Char) : Bool :=
  let n := c.toNat
  n < 32 || (127 ≤ n && n ≤ 159)

/-- The punctuation table, in the insertion order of `ShellLexer::new`.
The source stores it in a `HashMap` whose iteration order is arbitrary;
the lexer is therefore parameterised by the list, and this list records
the order in which the entries are inserted (the `>`-family is inserted
longest first, per the comment in the source). -/
def punctTable : List (List Char × ShellTokenKind) :=
  [ (['$'], .dollar), ([';'], .semi), (['&'], .amp), (['|'], .pipe),
    (['('], .lparen), ([')'], .rparen), (['<'], .stdIn),
    (['>', '>', '>'], .stdBoth), (['>', '>'], .stdErr), (['>'], .stdOut) ]

/-- `ShellLexer` state.  The `special` set is fixed (`isSpecial`); the
punctuation table is carried explicitly because the `HashMap` iteration
order it is read in is not fixed by the source. -/
structure ShellLexer where
  scanner : Scanner
  mode : LexerMode
  punct : List (List Char × ShellTokenKind)

/-- `ShellLexer::new`. -/
def ShellLexer.new (source : List Char) : ShellLexer :=
  { scanner := Scanner.new source, mode := .normal, punct := punctTable }

/-- Predicate for an unquoted-word character (`try_lex_unquoted`'s
`take_while` closure). -/
def unquotedPred (c : Char) : Bool :=
  !(rustIsWhitespace c) && !(rustIsControl c) && !(isSpecial c)

/-- `ShellLexer::try_lex_unquoted`. -/
def tryLexUnquoted (lx : ShellLexer) (c : Char) : Option (ShellToken × ShellLexer) :=
  if rustIsWhitespace c || rustIsControl c || isSpecial c then none
  else
    let sc := lx.scanner.pushMark
    let (s, sc1) := Scanner.takeWhile unquotedPred sc
    let (span, sc2) := sc1.popSpan
    some (⟨.str (String.mk s), span⟩, { lx with scanner := sc2 })

/-- The iteration of `try_lex_punct` over the punctuation entries:
the first entry whose key is next in the scanner is consumed. -/
def punctFind : List (List Char × ShellTokenKind) → Scanner →
    Option (ShellTokenKind × Scanner)
  | [], _ => none
  | (k, v) :: rest, sc =>
    match sc.takeIfNext k with
    | some (_, sc') => some (v, sc')
    | none => punctFind rest sc

/-- `ShellLexer::try_lex_punct`.  On failure the pushed mark is popped
again, so the lexer is returned unchanged. -/
def tryLexPunct (lx : ShellLexer) : Option (ShellToken × ShellLexer) :=
  match punctFind lx.punct lx.scanner.pushMark with
  | some (kind, sc1) =>
    let (span, sc2) := sc1.popSpan
    some (⟨kind, span⟩, { lx with scanner := sc2 })
  | none => none

/-- The token-vector termination of `tokenize`: push a mark at the
current position and emit a zero-length `EndOfInput` token. -/
def finishEOI (lx : ShellLexer) (acc : List ShellToken) :
    Res LexerError (List ShellToken × ShellLexer) :=
  let (span, sc) := lx.scanner.pushMark.popSpan
  .ok (acc ++ [⟨.endOfInput, span⟩], { lx with scanner := sc })

mutual

/-- The `while` loop of `ShellLexer::tokenize`, one fuel unit per
iteration.  `acc` is the `tokens` vector. -/
def tokenizeTokens : Nat → ShellLexer → List ShellToken →
    Res LexerError (List ShellToken × ShellLexer)
  | 0, _, _ => .fuelOut
  | fuel + 1, lx, acc =>
    if lx.scanner.isEmpty then finishEOI lx acc
    else
      let lx := { lx with scanner := Scanner.skipWhile rustIsWhitespace lx.scanner }
      if lx.scanner.isEmpty then finishEOI lx acc
      else
        match lx.scanner.peek with
        | none => .panicked         -- peek().unwrap(): unreachable, the scanner is non-empty
        | some c =>
          if lx.mode = .interp && c = '}' then finishEOI lx acc
          else
            match tryLexQuoted fuel lx c with
            | .ok (some (tk, lx')) => tokenizeTokens fuel lx' (acc ++ [tk])
            | .ok none =>
              match tryLexPunct lx with
              | some (tk, lx') => tokenizeTokens fuel lx' (acc ++ [tk])
              | none =>
                match tryLexUnquoted lx c with
                | some (tk, lx') => tokenizeTokens fuel lx' (acc ++ [tk])
                | none =>
                  let (span, _) := lx.scanner.pushMark.popSpan
                  .err (.unexpectedChar c (c.toNat % 65536) span)
            | .err e => .err e
            | .fuelOut => .fuelOut
            | .panicked => .panicked

/-- `ShellLexer::try_lex_quoted`: the part before and after the
character loop (`quotedLoop`). -/
def tryLexQuoted : Nat → ShellLexer → Char →
    Res LexerError (Option (ShellToken × ShellLexer))
  | 0, _, _ => .fuelOut
  | fuel + 1, lx, c =>
    if c ≠ '"' ∧ c ≠ '\'' ∧ c ≠ '`' then .ok none
    else
      let sc := lx.scanner.pushMark
      match sc.consume with
      | none => .panicked           -- consume().unwrap(): unreachable, `c` was peeked
      | some (term, sc1) =>
        let sc2 := sc1.pushMark
        match quotedLoop fuel term lx.punct sc2 [] [] false false with
        | .ok (toks, buf, sc3) =>
          -- `if self.scanner.is_empty() || self.scanner.consume().unwrap() != term`
          match sc3.consume with
          | none =>
            let (span, _) := sc3.popSpan
            .err (.unexpectedEOI "string does not terminate" span)
          | some (ch, sc4) =>
            if ch ≠ term then
              let (span, _) := sc4.popSpan
              .err (.unexpectedEOI "string does not terminate" span)
            else
              let isInterp := !(toks.isEmpty)
              if isInterp && !(buf.isEmpty) then
                let (spT, sc5) := sc4.popSpan
                let toks := toks ++ [⟨.str (String.mk buf), spT⟩]
                let (spF, sc6) := sc5.popSpan
                .ok (some (⟨.interp toks, spF⟩, { lx with scanner := sc6 }))
              else
                let (spF, sc5) := sc4.popSpan
                let kind := if isInterp then ShellTokenKind.interp toks
                            else ShellTokenKind.str (String.mk buf)
                .ok (some (⟨kind, spF⟩, { lx with scanner := sc5 }))
        | .err e => .err e
        | .fuelOut => .fuelOut
        | .panicked => .panicked

/-- The character loop of `try_lex_quoted`, one fuel unit per iteration.
`toks` is the `tokens` vector, `buf` the string buffer, and `mark`/`take`
the two loop flags.  The loop exits when the scanner is exhausted or the
next character equals the opener (checked before the flags act). -/
def quotedLoop : Nat → Char → List (List Char × ShellTokenKind) → Scanner →
    List ShellToken → List Char → Bool → Bool →
    Res LexerError (List ShellToken × List Char × Scanner)
  | 0, _, _, _, _, _, _, _ => .fuelOut
  | fuel + 1, term, punct, sc, toks, buf, mark, take =>
    match sc.chars with
    | [] => .ok (toks, buf, sc)
    | c :: rest =>
      if c = term then .ok (toks, buf, sc)
      else if mark then
        quotedLoop fuel term punct sc.pushMark toks buf false take
      else if take then
        quotedLoop fuel term punct (sc.advance c rest) toks (buf ++ [c]) mark false
      else if c = '\\' then
        if sc.peekAhead 1 = some term then
          -- consume the backslash; take the next character literally
          quotedLoop fuel term punct (sc.advance c rest) toks buf mark true
        else
          -- the backslash is not consumed here; `take` makes the next
          -- iteration push the backslash itself into the buffer
          quotedLoop fuel term punct sc toks buf mark true
      else if c = '{' then
        let (spS, sc1) := sc.popSpan
        let toks := toks ++ [⟨.str (String.mk buf), spS⟩]
        -- buf.clear(); mark = true; interp = self.clone() with mode Interp
        let isc := sc1.pushMark
        match isc.consume with
        | none => .panicked        -- consume().unwrap(): unreachable, next char is the brace
        | some (_, isc1) =>
          match tokenizeTokens fuel { scanner := isc1, mode := .interp, punct := punct } [] with
          | .ok (tks, ilx) =>
            -- `if interp.scanner.is_empty() || interp.scanner.consume().unwrap() != '}'`
            match ilx.scanner.consume with
            | none =>
              let (span, _) := sc1.popSpan
              .err (.unexpectedEOI "string interpolation does not terminate" span)
            | some (ch, isc2) =>
              if ch ≠ '}' then
                let (span, _) := sc1.popSpan
                .err (.unexpectedEOI "string interpolation does not terminate" span)
              else
                let (spI, isc3) := isc2.popSpan
                quotedLoop fuel term punct isc3 (toks ++ [⟨.interp tks, spI⟩]) [] true take
          | .err e => .err e
          | .fuelOut => .fuelOut
          | .panicked => .panicked
      else
        quotedLoop fuel term punct (sc.advance c rest) toks (buf ++ [c]) mark take

end

/-- `ShellLexer::tokenize` on a fresh lexer, parameterised by the
punctuation iteration order (the source's `HashMap` iteration order is
arbitrary), returning only the token vector. -/
def lexCharsWith (fuel : Nat) (punct : List (List Char × ShellTokenKind))
    (source : List Char) : Res LexerError (List ShellToken) :=
  match tokenizeTokens fuel { scanner := Scanner.new source, mode := .normal, punct := punct } [] with
  | .ok (tks, _) => .ok tks
  | .err e => .err e
  | .fuelOut => .fuelOut
  | .panicked => .panicked

/-- `ShellLexer::tokenize` on a fresh lexer (the `Normal`-mode entry
point used by the REPL), with the punctuation table read in its
insertion order. -/
def lexChars (fuel : Nat) (source : List Char) : Res LexerError (List ShellToken) :=
  lexCharsWith fuel punctTable source

/-! ## `src/shell/parsing.rs`: parser -/

/-- `shell/parsing.rs` `ParseError`, with the `From<parsing::ParseError>`
conversion folded in (the token stream's `UnexpectedEOI` and
`Unexpected` map one-to-one). -/
inductive ShellParseError where
  | expectSegment (found : String) (span : TextSpan)
  | expectString (span : TextSpan)
  | unexpectedEOI
  | unexpected (expect : String) (found : String) (span : TextSpan)
deriving Repr

/-- `shell/segments.rs` `RedirectMode`. -/
inductive RedirectMode where
  | stdIn
  | stdOut
  | stdErr
  | stdBoth
deriving Repr, DecidableEq

/-- The `ShellSegment` enum.  The enum's declaration itself is not among
the provided sources (only `shell/segments.rs`'s trait-object twins are),
but every constructor and its arity is fixed by the parser's uses in
`shell/parsing.rs` (`Empty`, `Text`, `StringInterp`, `CmdInterp`, `Var`,
`Command`, `Pipe`, `Seq`, `Redirect`). -/
inductive ShellSegment where
  | Empty
  | Text (s : String)
  | StringInterp (parts : List ShellSegment)
  | CmdInterp (inner : ShellSegment)
  | Var (name : String)
  | Command (command : ShellSegment) (args : Option (List ShellSegment))
  | Pipe (left right : ShellSegment)
  | Seq (safe : Bool) (left right : ShellSegment)
  | Redirect (left right : ShellSegment) (mode : RedirectMode)

/-- `Precedence` from `shell/parsing.rs`. -/
inductive Precedence where
  | Invalid
  | Seq
  | Pipe
  | Redir
  | Cmd
deriving Repr, DecidableEq

def Precedence.val : Precedence → Nat
  | .Invalid => 0
  | .Seq => 1
  | .Pipe => 2
  | .Redir => 3
  | .Cmd => 4

/-- The derived `Ord`'s strict comparison, used by `prec < get_prec(...)`. -/
def Precedence.lt (a b : Precedence) : Bool := a.val < b.val

/-- `ShellParser` state: the token stream and the command-position flag. -/
structure ShellParser where
  tokens : List ShellToken
  parse_commands : Bool

/-- `ShellParser::new`. -/
def ShellParser.new (tks : List ShellToken) : ShellParser :=
  { tokens := tks, parse_commands := true }

/-- `std::mem::discriminant` equality on token kinds. -/
def sameKind : ShellTokenKind → ShellTokenKind → Bool
  | .str _, .str _ => true
  | .interp _, .interp _ => true
  | .dollar, .dollar => true
  | .semi, .semi => true
  | .amp, .amp => true
  | .pipe, .pipe => true
  | .stdIn, .stdIn => true
  | .stdOut, .stdOut => true
  | .stdErr, .stdErr => true
  | .stdBoth, .stdBoth => true
  | .lparen, .lparen => true
  | .rparen, .rparen => true
  | .endOfInput, .endOfInput => true
  | _, _ => false

/-- `TokenStream::is_empty`. -/
def ShellParser.isEmpty (p : ShellParser) : Bool := p.tokens.isEmpty

/-- `TokenStream::peek`. -/
def ShellParser.peek (p : ShellParser) : Option ShellToken := p.tokens.head?

/-- `TokenStream::match_a`. -/
def ShellParser.matchA (p : ShellParser) (what : ShellTokenKind) : Bool :=
  match p.tokens with
  | [] => false
  | tk :: _ => sameKind tk.kind what

/-- `TokenStream::consume`. -/
def ShellParser.consume (p : ShellParser) :
    Res ShellParseError (ShellToken × ShellParser) :=
  match p.tokens with
  | [] => .err .unexpectedEOI
  | tk :: rest => .ok (tk, { p with tokens := rest })

/-- `TokenStream::consume_a`. -/
def ShellParser.consumeA (p : ShellParser) (what : ShellTokenKind) :
    Res ShellParseError (ShellToken × ShellParser) :=
  match p.tokens with
  | [] => .err .unexpectedEOI
  | tk :: rest =>
    if sameKind tk.kind what then .ok (tk, { p with tokens := rest })
    else .err (.unexpected what.toText tk.toText tk.span)

/-- The local `get_prec` function of `ShellParser::parse`. -/
def getPrec : Option ShellToken → Precedence
  | some tk =>
    match tk.kind with
    | .amp => .Seq
    | .semi => .Seq
    | .pipe => .Pipe
    | .stdIn => .Redir
    | .stdOut => .Redir
    | .stdErr => .Redir
    | .stdBoth => .Redir
    | _ => .Invalid
  | none => .Invalid

/-- `ShellParser::has_segment`. -/
def ShellParser.hasSegment (p : ShellParser) : Bool :=
  match p.tokens with
  | [] => false
  | tk :: _ =>
    match tk.kind with
    | .str _ => true
    | .interp _ => true
    | .dollar => true
    | _ => false

/-- The redirection operator → mode table of `parse_redirect`
(`unreachable!()` for any other kind). -/
def redirectModeOf : ShellTokenKind → Option RedirectMode
  | .stdIn => some .stdIn
  | .stdOut => some .stdOut
  | .stdErr => some .stdErr
  | .stdBoth => some .stdBoth
  | _ => none

mutual

/-- `ShellParser::parse_all`, on a fresh parser (both of its call sites,
the REPL and `parse_interp`, construct the parser with
`ShellParser::new`, which sets `parse_commands = true`). -/
def parseAll : Nat → List ShellToken → Res ShellParseError ShellSegment
  | 0, _ => .fuelOut
  | fuel + 1, tks =>
    let p := ShellParser.new tks
    if p.isEmpty then .ok .Empty
    else
      match parse fuel p .Invalid with
      | .ok (tree, p1) =>
        match p1.consumeA .endOfInput with
        | .ok _ => .ok tree
        | .err e => .err e
        | .fuelOut => .fuelOut
        | .panicked => .panicked
      | .err e => .err e
      | .fuelOut => .fuelOut
      | .panicked => .panicked

/-- `ShellParser::parse`: the leading-operand match followed by the
precedence-climbing loop (`parseLoop`). -/
def parse : Nat → ShellParser → Precedence →
    Res ShellParseError (ShellSegment × ShellParser)
  | 0, _, _ => .fuelOut
  | fuel + 1, p, prec =>
    match p.consume with
    | .ok (tk, p1) =>
      match tk.kind with
      | .str s =>
        match parseString fuel p1 s with
        | .ok (left, p2) => parseLoop fuel p2 left prec
        | .err e => .err e
        | .fuelOut => .fuelOut
        | .panicked => .panicked
      | .interp tks =>
        match parseInterp fuel p1 tks with
        | .ok (left, p2) => parseLoop fuel p2 left prec
        | .err e => .err e
        | .fuelOut => .fuelOut
        | .panicked => .panicked
      | .dollar =>
        if p1.matchA .lparen then
          match p1.consumeA .lparen with
          | .ok (_, p2) =>
            -- with_commands(|p| p.parse(Precedence::Invalid))
            match parse fuel { p2 with parse_commands := true } .Invalid with
            | .ok (seg, p3) =>
              match ShellParser.consumeA
                  { p3 with parse_commands := p2.parse_commands } .rparen with
              | .ok (_, p4) => parseLoop fuel p4 (.CmdInterp seg) prec
              | .err e => .err e
              | .fuelOut => .fuelOut
              | .panicked => .panicked
            | .err e => .err e
            | .fuelOut => .fuelOut
            | .panicked => .panicked
          | .err e => .err e
          | .fuelOut => .fuelOut
          | .panicked => .panicked
        else
          match p1.consumeA (.str "") with
          | .ok (tk2, p2) =>
            match tk2.kind with
            | .str name => parseLoop fuel p2 (.Var name) prec
            | _ => .panicked       -- unreachable!(): consume_a matched a String
          | .err e => .err e
          | .fuelOut => .fuelOut
          | .panicked => .panicked
      | _ => .err (.expectSegment tk.toText tk.span)
    | .err e => .err e
    | .fuelOut => .fuelOut
    | .panicked => .panicked

/-- The `while prec < get_prec(...)` loop of `ShellParser::parse`. -/
def parseLoop : Nat → ShellParser → ShellSegment → Precedence →
    Res ShellParseError (ShellSegment × ShellParser)
  | 0, _, _, _ => .fuelOut
  | fuel + 1, p, left, prec =>
    if prec.lt (getPrec p.peek) then
      match p.consume with
      | .ok (tk, p1) =>
        match tk.kind with
        | .amp =>
          match parse fuel p1 .Seq with
          | .ok (right, p2) => parseLoop fuel p2 (.Seq true left right) prec
          | .err e => .err e
          | .fuelOut => .fuelOut
          | .panicked => .panicked
        | .semi =>
          match parse fuel p1 .Seq with
          | .ok (right, p2) => parseLoop fuel p2 (.Seq false left right) prec
          | .err e => .err e
          | .fuelOut => .fuelOut
          | .panicked => .panicked
        | .pipe =>
          match parse fuel p1 .Pipe with
          | .ok (right, p2) => parseLoop fuel p2 (.Pipe left right) prec
          | .err e => .err e
          | .fuelOut => .fuelOut
          | .panicked => .panicked
        | .stdIn =>
          match parseRedirect fuel p1 left tk with
          | .ok (l2, p2) => parseLoop fuel p2 l2 prec
          | .err e => .err e
          | .fuelOut => .fuelOut
          | .panicked => .panicked
        | .stdOut =>
          match parseRedirect fuel p1 left tk with
          | .ok (l2, p2) => parseLoop fuel p2 l2 prec
          | .err e => .err e
          | .fuelOut => .fuelOut
          | .panicked => .panicked
        | .stdErr =>
          match parseRedirect fuel p1 left tk with
          | .ok (l2, p2) => parseLoop fuel p2 l2 prec
          | .err e => .err e
          | .fuelOut => .fuelOut
          | .panicked => .panicked
        | .stdBoth =>
          match parseRedirect fuel p1 left tk with
          | .ok (l2, p2) => parseLoop fuel p2 l2 prec
          | .err e => .err e
          | .fuelOut => .fuelOut
          | .panicked => .panicked
        | _ => .panicked    -- unreachable!(): the precedence guard excludes other kinds
      | .err e => .err e
      | .fuelOut => .fuelOut
      | .panicked => .panicked
    else .ok (left, p)

/-- `ShellParser::parse_string`. -/
def parseString : Nat → ShellParser → String →
    Res ShellParseError (ShellSegment × ShellParser)
  | 0, _, _ => .fuelOut
  | fuel + 1, p, s =>
    let seg := ShellSegment.Text s
    if !p.parse_commands then .ok (seg, p)
    else parseArgs fuel p seg

/-- `ShellParser::parse_interp`. -/
def parseInterp : Nat → ShellParser → List ShellToken →
    Res ShellParseError (ShellSegment × ShellParser)
  | 0, _, _ => .fuelOut
  | fuel + 1, p, tks =>
    match interpChildren fuel tks with
    | .ok segs =>
      let seg := ShellSegment.StringInterp segs
      if !p.parse_commands then .ok (seg, p)
      else parseArgs fuel p seg
    | .err e => .err e
    | .fuelOut => .fuelOut
    | .panicked => .panicked

/-- The `for tk in tks` loop of `parse_interp`: `String` children become
`Text`, `Interp` children are re-parsed through a fresh parser's
`parse_all`, anything else is `unreachable!()`. -/
def interpChildren : Nat → List ShellToken → Res ShellParseError (List ShellSegment)
  | 0, _ => .fuelOut
  | _ + 1, [] => .ok []
  | fuel + 1, tk :: rest =>
    match tk.kind with
    | .str s =>
      match interpChildren fuel rest with
      | .ok segs => .ok (.Text s :: segs)
      | .err e => .err e
      | .fuelOut => .fuelOut
      | .panicked => .panicked
    | .interp tks =>
      match parseAll fuel tks with
      | .ok seg =>
        match interpChildren fuel rest with
        | .ok segs => .ok (seg :: segs)
        | .err e => .err e
        | .fuelOut => .fuelOut
        | .panicked => .panicked
      | .err e => .err e
      | .fuelOut => .fuelOut
      | .panicked => .panicked
    | _ => .panicked          -- unreachable!()

/-- `ShellParser::parse_args`. -/
def parseArgs : Nat → ShellParser → ShellSegment →
    Res ShellParseError (ShellSegment × ShellParser)
  | 0, _, _ => .fuelOut
  | fuel + 1, p, seg =>
    match argsLoop fuel p [] with
    | .ok (segs, p1) =>
      if segs.isEmpty then .ok (.Command seg none, p1)
      else .ok (.Command seg (some segs), p1)
    | .err e => .err e
    | .fuelOut => .fuelOut
    | .panicked => .panicked

/-- The `while self.has_segment()` loop of `parse_args`; each argument is
parsed at `Precedence::Cmd` with `without_commands`. -/
def argsLoop : Nat → ShellParser → List ShellSegment →
    Res ShellParseError (List ShellSegment × ShellParser)
  | 0, _, _ => .fuelOut
  | fuel + 1, p, acc =>
    if p.hasSegment then
      match parse fuel { p with parse_commands := false } .Cmd with
      | .ok (seg, p1) =>
        argsLoop fuel { p1 with parse_commands := p.parse_commands } (acc ++ [seg])
      | .err e => .err e
      | .fuelOut => .fuelOut
      | .panicked => .panicked
    else .ok (acc, p)

/-- `ShellParser::parse_redirect` (the debug `println!` is ignored). -/
def parseRedirect : Nat → ShellParser → ShellSegment → ShellToken →
    Res ShellParseError (ShellSegment × ShellParser)
  | 0, _, _, _ => .fuelOut
  | fuel + 1, p, left, tk =>
    let span := match p.peek with
      | some t => t.span
      | none => tk.span
    match parse fuel { p with parse_commands := false } .Redir with
    | .ok (right, p1) =>
      let p2 := { p1 with parse_commands := p.parse_commands }
      let valid := match right with
        | .Text _ => true
        | .StringInterp _ => true
        | _ => false
      if !valid then .err (.expectString span)
      else
        match redirectModeOf tk.kind with
        | some mode => .ok (.Redirect left right mode, p2)
        | none => .panicked   -- unreachable!()
    | .err e => .err e
    | .fuelOut => .fuelOut
    | .panicked => .panicked

end

/-! ## `src/shell/segments.rs`: evaluator

Child processes, the environment and the file system are modelled by an
explicit `World`: the process-spawn behaviour is an oracle function (the
`Box<dyn Executable>` leaves of the source are arbitrary objects, and a
spawned child's behaviour is outside the program), the environment and
file system are association lists.
-/

/-- `ShellResult` from `shell/segments.rs`. -/
structure ShellResult where
  code : Option Int
  stdout : Option (List String)
  stderr : Option (List String)
deriving Repr, DecidableEq

/-- `ShellResult::ok()`. -/
def ShellResult.okResult : ShellResult :=
  { code := some 0, stdout := none, stderr := none }

/-- `ShellResult::ok_with_text`. -/
def ShellResult.okWithText (s : String) : ShellResult :=
  { code := some 0, stdout := some [s], stderr := none }

/-- The `std::io::Error` values the evaluator produces or matches on:
`ErrorKind::NotFound` is distinguished because `Cmd::execute` remaps it. -/
inductive IOErr where
  | notFound (msg : String)
  | other (msg : String)
deriving Repr, DecidableEq

/-- The `ensure_result!` macro's early-return condition: the result's
code is `None` or non-zero. -/
def shortCircuits (r : ShellResult) : Bool :=
  match r.code with
  | none => true
  | some c => c ≠ 0

/-- The world a segment evaluation runs in.  `spawn` is the oracle for
`Command::new(name)` + argument/stdin wiring + `SubProcess::result`: it
yields the child's exit code (`None` = killed by signal, per
`get_exit_code`) and the raw bytes of its stdout and stderr. -/
structure World where
  env : List (String × String)
  fs : List (String × String)
  spawn : String → List String → Bool → Option (List String) →
    Except IOErr (Option Int × String × String)

/-- Rust `str::trim` (Unicode whitespace stripped from both ends). -/
def rustTrim (s : String) : String :=
  String.mk (((s.data.dropWhile rustIsWhitespace).reverse.dropWhile rustIsWhitespace).reverse)

/-- Split a character list on LF: the pieces between separators, like
Rust `str::split("\n")` (an empty input gives one empty piece). -/
def splitNL : List Char → List (List Char)
  | [] => [[]]
  | c :: rest =>
    if c = '\n' then [] :: splitNL rest
    else
      match splitNL rest with
      | [] => [[c]]
      | l :: ls => (c :: l) :: ls

/-- `SubProcess::split_lines`: split on LF, trim each line, drop
empties. -/
def splitLines (buf : String) : List String :=
  (((splitNL buf.data).map (fun l => rustTrim (String.mk l)))).filter
    (fun x => x.length > 0)

/-- Strip one trailing carriage return (`BufRead::lines` CRLF handling). -/
def stripCR (l : List Char) : String :=
  match l.reverse with
  | '\r' :: rest => String.mk rest.reverse
  | _ => String.mk l

/-- `BufRead::lines` over a file's contents: terminated lines lose their
`\n` (and a preceding `\r`); a final unterminated fragment is kept as is;
a trailing terminator produces no extra empty line. -/
def readLines (content : String) : List String :=
  go (splitNL content.data)
where
  go : List (List Char) → List String
    | [] => []
    | [last] => if last.isEmpty then [] else [String.mk last]
    | s :: rest => stripCR s :: go rest

/-- The `COMMANDS` built-in table's keys (`cd`, `cls`, `clear`). -/
def builtinNames : List String := ["cd", "cls", "clear"]

/-- Both built-ins (`change_dir`, `clear`) return `ShellResult::ok()` on
every path (`change_dir` only prints). -/
def runBuiltin (_name : String) (_argv : List String)
    (_input : Option (List String)) : ShellResult :=
  ShellResult.okResult

/-- `SubProcess::result` with `read_child`/`read_command`: when
capturing, non-empty raw output is split into trimmed lines, empty raw
output becomes `None`; when not capturing, the streams are inherited and
the result carries `None` for both. -/
def spawnResult (w : World) (name : String) (argv : List String) (capture : Bool)
    (input : Option (List String)) : Except IOErr ShellResult :=
  match w.spawn name argv capture input with
  | .error e => .error e
  | .ok (code, rawOut, rawErr) =>
    if capture then
      .ok { code := code,
            stdout := if rawOut.length > 0 then some (splitLines rawOut) else none,
            stderr := if rawErr.length > 0 then some (splitLines rawErr) else none }
    else .ok { code := code, stdout := none, stderr := none }

/-- The `StdIn` arm of `Redirect::execute`: open the path, read its
lines, and replace the caller's `input` (empty list becomes `None`).
Other modes keep the caller's `input`. -/
def redirInput (mode : RedirectMode) (path : String)
    (input : Option (List String)) (w : World) :
    Except IOErr (Option (List String)) :=
  match mode with
  | .stdIn =>
    match List.lookup path w.fs with
    | none => .error (.other ("could not open file '" ++ path ++ "'"))
    | some content =>
      let lines := readLines content
      .ok (if lines.isEmpty then none else some lines)
  | _ => .ok input

/-- The write-mode file contents of `Redirect::execute`: each selected
line followed by LF; `StdBoth` writes stdout first, then stderr
(`File::create` truncates, so the file holds exactly this). -/
def writeContent (mode : RedirectMode) (lres : ShellResult) : String :=
  let outPart := if mode = .stdOut ∨ mode = .stdBoth then
      String.join ((lres.stdout.getD []).map (· ++ "\n"))
    else ""
  let errPart := if mode = .stdErr ∨ mode = .stdBoth then
      String.join ((lres.stderr.getD []).map (· ++ "\n"))
    else ""
  outPart ++ errPart

mutual

/-- `execute(capture, input)` for a `ShellSegment`.  The enum's `execute`
dispatch itself is not among the provided sources; each variant's body is
translated from the corresponding `impl Executable` in
`shell/segments.rs` (`Empty`, `Text`, `Cmd`, `TextInterp`, `CmdInterp`,
`Pipe`, `Seq`, `Var`, `Redirect`), which the specification's §4.5
dispatch table matches up to the discrepancies proven below.  The single
`.panicked` outcome models `res.stdout.unwrap()` in `Cmd::execute`. -/
def execute : Nat → ShellSegment → Bool → Option (List String) → World →
    Res IOErr (ShellResult × World)
  | 0, _, _, _, _ => .fuelOut
  | fuel + 1, seg, capture, input, w =>
    match seg with
    | .Empty => .ok (ShellResult.okResult, w)
    | .Text s => .ok (ShellResult.okWithText s, w)
    | .Var name =>
      match input with
      | some x =>
        let value := String.intercalate " " x
        .ok (ShellResult.okWithText value, { w with env := (name, value) :: w.env })
      | none =>
        match List.lookup name w.env with
        | some v => .ok (ShellResult.okWithText v, w)
        | none => .err (.other ("variable '" ++ name ++ "' not found"))
        -- VarError::NotUnicode cannot arise: env values are modelled as strings
    | .CmdInterp inner => execute fuel inner true none w
    | .StringInterp parts =>
      match interpParts fuel parts [] w with
      | .ok (.inl (r, w1)) => .ok (r, w1)            -- ensure_result! early return
      | .ok (.inr (lines, w1)) => .ok (ShellResult.okWithText (String.join lines), w1)
      | .err e => .err e
      | .fuelOut => .fuelOut
      | .panicked => .panicked
    | .Pipe l r =>
      match execute fuel l true input w with
      | .ok (lres, w1) =>
        if shortCircuits lres then .ok (lres, w1)
        else execute fuel r capture lres.stdout w1
      | .err e => .err e
      | .fuelOut => .fuelOut
      | .panicked => .panicked
    | .Seq safe l r =>
      if safe then
        match execute fuel l false none w with
        | .ok (lres, w1) =>
          if shortCircuits lres then .ok (lres, w1)
          else execute fuel r capture input w1
        | .err e => .err e
        | .fuelOut => .fuelOut
        | .panicked => .panicked
      else
        match execute fuel l false none w with
        | .ok (_, w1) => execute fuel r capture input w1
        | .err e => .err e
        | .fuelOut => .fuelOut
        | .panicked => .panicked
    | .Redirect l r mode =>
      match execute fuel r true none w with
      | .ok (rres, w1) =>
        if shortCircuits rres then .ok (rres, w1)
        else
          let path := match rres.stdout with
            | some x => String.join x
            | none => ""
          match redirInput mode path input w1 with
          | .error e => .err e
          | .ok input2 =>
            match execute fuel l true input2 w1 with
            | .ok (lres, w2) =>
              if shortCircuits lres then .ok (lres, w2)
              else
                if mode = .stdOut ∨ mode = .stdErr ∨ mode = .stdBoth then
                  .ok (ShellResult.okResult,
                       { w2 with fs := (path, writeContent mode lres) :: w2.fs })
                else .ok (ShellResult.okResult, w2)
            | .err e => .err e
            | .fuelOut => .fuelOut
            | .panicked => .panicked
      | .err e => .err e
      | .fuelOut => .fuelOut
      | .panicked => .panicked
    | .Command cmd args =>
      match execute fuel cmd true none w with
      | .ok (res, w1) =>
        if shortCircuits res then .ok (res, w1)
        else
          match res.stdout with
          | none => .panicked       -- res.stdout.unwrap()
          | some lines =>
            let name := String.join lines
            match argsExec fuel (args.getD []) [] w1 with
            | .ok (argv, w2) =>
              if builtinNames.contains name then
                .ok (runBuiltin name (name :: argv) input, w2)
              else
                match input with
                | some _ =>
                  -- stdin is piped; `proc.spawn()?` errors propagate unmapped
                  match spawnResult w2 name argv capture input with
                  | .ok r => .ok (r, w2)
                  | .error e => .err e
                | none =>
                  -- errors surface via `subprocess.result()` and NotFound is remapped
                  match spawnResult w2 name argv capture none with
                  | .ok r => .ok (r, w2)
                  | .error (.notFound _) =>
                    .err (.notFound ("'" ++ name ++
                      "' is not a recognized command, script file, or executable program."))
                  | .error e => .err e
            | .err e => .err e
            | .fuelOut => .fuelOut
            | .panicked => .panicked
      | .err e => .err e
      | .fuelOut => .fuelOut
      | .panicked => .panicked

/-- The `for seg in &self.0` loop of `TextInterp::execute`: `inl` is the
`ensure_result!` early return, `inr` the collected stdout lines. -/
def interpParts : Nat → List ShellSegment → List String → World →
    Res IOErr ((ShellResult × World) ⊕ (List String × World))
  | 0, _, _, _ => .fuelOut
  | _ + 1, [], acc, w => .ok (.inr (acc, w))
  | fuel + 1, s :: rest, acc, w =>
    match execute fuel s true none w with
    | .ok (r, w1) =>
      if shortCircuits r then .ok (.inl (r, w1))
      else interpParts fuel rest (acc ++ r.stdout.getD []) w1
    | .err e => .err e
    | .fuelOut => .fuelOut
    | .panicked => .panicked

/-- The argument loop of `Cmd::execute`: every argument is evaluated with
`capture = true`, its stdout lines (if any) extend the argv; exit codes
are not checked. -/
def argsExec : Nat → List ShellSegment → List String → World →
    Res IOErr (List String × World)
  | 0, _, _, _ => .fuelOut
  | _ + 1, [], acc, w => .ok (acc, w)
  | fuel + 1, x :: rest, acc, w =>
    match execute fuel x true none w with
    | .ok (r, w1) => argsExec fuel rest (acc ++ r.stdout.getD []) w1
    | .err e => .err e
    | .fuelOut => .fuelOut
    | .panicked => .panicked

end

/-! ## Fixed worlds, inputs and comparison definitions used by the theorems -/

/-- A world whose child processes all exit 0 with no output. -/
def wTriv : World :=
  { env := [], fs := [], spawn := fun _ _ _ _ => .ok (some 0, "", "") }

/-- A world whose child processes all exit 1 with no output. -/
def wFail : World :=
  { env := [], fs := [], spawn := fun _ _ _ _ => .ok (some 1, "", "") }

/-- Modelled from the spec: "`safe=true`: evaluate left with caller's
`capture` and `input=None`; if code is `0`, return right's result; else
return left." — the §4.5 `Seq` semantics sentence that claim C3 quotes.
This is the comparison definition for the refutation; the source's
behaviour is `execute` on `ShellSegment.Seq true`. -/
def seqSafeExecuteSpec (fuel : Nat) (l r : ShellSegment) (capture : Bool)
    (input : Option (List String)) (w : World) : Res IOErr (ShellResult × World) :=
  match execute fuel l capture none w with
  | .ok (lres, w1) =>
    if lres.code = some 0 then execute fuel r capture input w1
    else .ok (lres, w1)
  | .err e => .err e
  | .fuelOut => .fuelOut
  | .panicked => .panicked

/-- A world whose children exit 0 when their output is captured and 1
when it is inherited (a process may legitimately behave differently when
its stdout is a pipe). -/
def c3World : World :=
  { env := [], fs := [],
    spawn := fun _ _ capture _ => .ok (if capture then some 0 else some 1, "", "") }

def c3Left : ShellSegment := .Command (.Text "probe") none

/-- A world whose children exit 1 with output `boom`. -/
def c9World : World :=
  { env := [], fs := [], spawn := fun _ _ _ _ => .ok (some 1, "boom\n", "") }

/-- The zero-length span at the start of the source. -/
def sp00 : TextSpan := ⟨⟨0, 1, 1⟩, ⟨0, 1, 1⟩⟩

/-- A scanner state just inside an opening `"`, with remaining input
`\x"`. -/
def c4sc : Scanner :=
  { chars := ['\\', 'x', '"'], markers := [], index := 1, line := 1, column := 2 }

/-- Every `Interp` token in a token tree carries a non-empty children
list, recursively (the amended C6 invariant; children of a brace
sub-expression `Interp` may be of any kind, `EndOfInput` and punctuation
included). -/
inductive TokNE : ShellToken → Prop where
  | interp (ch : List ShellToken) (sp : TextSpan) (hne : ch ≠ [])
      (hall : ∀ t ∈ ch, TokNE t) : TokNE ⟨.interp ch, sp⟩
  | other (k : ShellTokenKind) (sp : TextSpan)
      (h : ∀ ch, k ≠ .interp ch) : TokNE ⟨k, sp⟩

/-- The command-head shape of C10: a `Command`'s head is a `Text` or a
`StringInterp` (exactly the two shapes `parse_args` is called with). -/
def isTextual : ShellSegment → Bool
  | .Text _ => true
  | .StringInterp _ => true
  | _ => false

mutual

/-- The recursive C10 invariant on segment trees: every `Command` node's
head is `Text` or `StringInterp`, throughout the tree. -/
def ShellSegment.goodB : ShellSegment → Bool
  | .Empty => true
  | .Text _ => true
  | .Var _ => true
  | .StringInterp ps => goodBList ps
  | .CmdInterp s => s.goodB
  | .Command c args =>
    isTextual c && c.goodB &&
    (match args with
     | none => true
     | some l => goodBList l)
  | .Pipe l r => l.goodB && r.goodB
  | .Seq _ l r => l.goodB && r.goodB
  | .Redirect l r _ => l.goodB && r.goodB

def goodBList : List ShellSegment → Bool
  | [] => true
  | s :: rest => s.goodB && goodBList rest

end

/-! ## Span predicates (C5) -/

/-- The character of the source at index `i`. -/
def charAt (source : List Char) (i : Nat) : Option Char :=
  (source.drop i).head?

/-- The characters of the source between a span's start and stop indices
(the `source[t.span.start.index .. t.span.end.index]` substring; the
lexer input is treated character-wise). -/
def sliceSpan (source : List Char) (sp : TextSpan) : List Char :=
  (source.drop sp.start.index).take (sp.stop.index - sp.start.index)

/-- The three characters that open a quoted string (the opener test of
`try_lex_quoted`). -/
def isQuoteChar (c : Char) : Bool := c = '"' || c = '\'' || c = '`'

/-- The scanner's remaining characters are exactly the source's suffix
at the scanner's index — the relation the lexer maintains between its
scanner and the original source string. -/
def Scanner.tracks (source : List Char) (sc : Scanner) : Prop :=
  sc.chars = source.drop sc.index ∧ sc.index ≤ source.length

/-- A position where `try_lex_quoted` can leave a span mark on the mark
stack: on a quote (the opener mark, which the no-interpolation path
leaks — it pushes two marks but pops only one), just past a quote (the
content mark, pushed after consuming the opener), just past a `}` (the
mark re-pushed after an interpolation), or on a `{` (the sub-expression
mark, shadowed when a nested quoted string leaks its own opener
mark). -/
def strayMarkIdx (source : List Char) (i : Nat) : Prop :=
  (∃ q, isQuoteChar q = true ∧ charAt source i = some q) ∨
  (1 ≤ i ∧ ∃ q, isQuoteChar q = true ∧ charAt source (i - 1) = some q) ∨
  (1 ≤ i ∧ charAt source (i - 1) = some '}') ∨
  charAt source i = some '{'

/-- The span of a `String` token produced by the quoted-string lexer: it
starts just past the opening quote and stops just past the closing
quote, so it covers the content plus the closing quote but not the
opening quote (the C5 counterexample). -/
def quotedStrSpan (source : List Char) (sp : TextSpan) : Prop :=
  ∃ q, isQuoteChar q = true ∧
    1 ≤ sp.start.index ∧ sp.start.index < sp.stop.index ∧
    charAt source (sp.start.index - 1) = some q ∧
    charAt source (sp.stop.index - 1) = some q

/-- The span of an `Interp` token produced by the quoted-string lexer:
it stops just past the closing quote, and it starts at a position where
the lexer's mark handling left a mark — the opening quote in the common
case, but possibly a position inside the literal (just past a `}`, on a
`{`, or on a nested quote) because `try_lex_quoted` leaks its opener
mark on the no-interpolation path. -/
def quotedInterpSpan (source : List Char) (sp : TextSpan) : Prop :=
  ∃ q, isQuoteChar q = true ∧
    sp.start.index < sp.stop.index ∧
    charAt source (sp.stop.index - 1) = some q ∧
    strayMarkIdx source sp.start.index

/-- Span correctness of one lexed token against the source, `endIdx`
being the position the tokenize loop stopped at: every punctuation token
round-trips exactly (its span slices to the punctuation text that
produced it), `EndOfInput` is the zero-length span at `endIdx`, a
`String` token either round-trips exactly (the unquoted-word case) or is
a quoted string whose span drops the opening quote, and an `Interp`
token stops just past its closing quote. -/
def spanFaithfulAt (source : List Char) (endIdx : Nat) : ShellToken → Prop
  | ⟨.str s, sp⟩ => sliceSpan source sp = s.data ∨ quotedStrSpan source sp
  | ⟨.interp _, sp⟩ => quotedInterpSpan source sp
  | ⟨.dollar, sp⟩ => sliceSpan source sp = ['$']
  | ⟨.semi, sp⟩ => sliceSpan source sp = [';']
  | ⟨.amp, sp⟩ => sliceSpan source sp = ['&']
  | ⟨.pipe, sp⟩ => sliceSpan source sp = ['|']
  | ⟨.stdIn, sp⟩ => sliceSpan source sp = ['<']
  | ⟨.stdOut, sp⟩ => sliceSpan source sp = ['>']
  | ⟨.stdErr, sp⟩ => sliceSpan source sp = ['>', '>']
  | ⟨.stdBoth, sp⟩ => sliceSpan source sp = ['>', '>', '>']
  | ⟨.lparen, sp⟩ => sliceSpan source sp = ['(']
  | ⟨.rparen, sp⟩ => sliceSpan source sp = [')']
  | ⟨.endOfInput, sp⟩ => sp.start.index = endIdx ∧ sp.stop.index = endIdx

/-- Span correctness of a token of a complete (`Normal`-mode) lex: the
tokenize loop stops at the end of the source, where `EndOfInput` gets
its zero-length span. -/
def spanFaithful (source : List Char) (t : ShellToken) : Prop :=
  spanFaithfulAt source source.length t

/-! ## Helper lemmas -/

theorem Scanner.steppedAll_chars (sc : Scanner) (cs rest : List Char)
    (h : sc.chars = cs ++ rest) : (sc.steppedAll cs).chars = rest := by
  induction cs generalizing sc with
  | nil => simpa using h
  | cons c cs ih =>
    simp only [Scanner.steppedAll]
    exact ih _ (by simp [Scanner.stepped, h])

theorem Scanner.steppedAll_markers (sc : Scanner) (cs : List Char) :
    (sc.steppedAll cs).markers = sc.markers := by
  induction cs generalizing sc with
  | nil => rfl
  | cons c cs ih => simp only [Scanner.steppedAll]; rw [ih]; simp [Scanner.stepped]

theorem Scanner.steppedAll_index (sc : Scanner) (cs : List Char) :
    (sc.steppedAll cs).index = sc.index + cs.length := by
  induction cs generalizing sc with
  | nil => simp [Scanner.steppedAll]
  | cons c cs ih =>
    simp only [Scanner.steppedAll]
    rw [ih]
    simp [Scanner.stepped]
    omega

theorem Scanner.steppedAll_shape (sc : Scanner) (cs rest : List Char)
    (h : sc.chars = cs ++ rest) :
    ∃ ln col, sc.steppedAll cs = ⟨rest, sc.markers, sc.index + cs.length, ln, col⟩ := by
  refine ⟨(sc.steppedAll cs).line, (sc.steppedAll cs).column, ?_⟩
  have h1 := Scanner.steppedAll_chars sc cs rest h
  have h2 := Scanner.steppedAll_markers sc cs
  have h3 := Scanner.steppedAll_index sc cs
  cases hE : sc.steppedAll cs
  simp_all

theorem charAt_eq_head (source : List Char) (sc : Scanner) (h : sc.tracks source) :
    charAt source sc.index = sc.chars.head? := by
  rw [charAt, ← h.1]

theorem tracks_pushMark (source : List Char) (sc : Scanner) (h : sc.tracks source) :
    sc.pushMark.tracks source := h

theorem tracks_advance (source : List Char) (sc : Scanner) (c : Char) (rest : List Char)
    (h : sc.tracks source) (hch : sc.chars = c :: rest) :
    (sc.advance c rest).tracks source := by
  obtain ⟨h1, h2⟩ := h
  have hlen : (source.drop sc.index).length = source.length - sc.index :=
    List.length_drop _ _
  rw [← h1, hch, List.length_cons] at hlen
  constructor
  · show rest = source.drop (sc.index + 1)
    have hd : (source.drop sc.index).drop 1 = source.drop (sc.index + 1) := by
      rw [List.drop_drop]
    rw [← hd, ← h1, hch, List.drop_one, List.tail_cons]
  · show sc.index + 1 ≤ source.length
    omega

theorem tracks_steppedAll (source : List Char) (sc : Scanner) (cs rest : List Char)
    (h : sc.tracks source) (hch : sc.chars = cs ++ rest) :
    (sc.steppedAll cs).tracks source := by
  obtain ⟨h1, h2⟩ := h
  have hlen : (source.drop sc.index).length = source.length - sc.index :=
    List.length_drop _ _
  rw [← h1, hch, List.length_append] at hlen
  constructor
  · rw [Scanner.steppedAll_chars sc cs rest hch, Scanner.steppedAll_index]
    have hd : (source.drop sc.index).drop cs.length = source.drop (sc.index + cs.length) := by
      rw [List.drop_drop, Nat.add_comm]
    rw [← hd, ← h1, hch, List.drop_left]
  · rw [Scanner.steppedAll_index]
    omega

theorem popSpan_cons (sc : Scanner) (m : Location) (rest : List Location)
    (h : sc.markers = m :: rest) :
    sc.popSpan = (⟨m, sc.currentPos⟩, { sc with markers := rest }) := by
  simp [Scanner.popSpan, h]

/-- Popping a span when the mark stack is `L ++ m :: rest`: the span
starts at `m` itself when `L` is empty, and otherwise at some stray mark
out of `L`, the remaining stack still being of the form
`L2 ++ m :: rest`. -/
theorem popSpan_split (sc : Scanner) (L : List Location) (m : Location)
    (rest : List Location) (h : sc.markers = L ++ m :: rest) :
    ∃ m2 tl, sc.popSpan = (⟨m2, sc.currentPos⟩, { sc with markers := tl }) ∧
      ((m2 = m ∧ tl = rest ∧ L = []) ∨
       (m2 ∈ L ∧ ∃ L2, tl = L2 ++ m :: rest ∧ ∀ x ∈ L2, x ∈ L)) := by
  cases L with
  | nil =>
    refine ⟨m, rest, ?_, Or.inl ⟨rfl, rfl, rfl⟩⟩
    exact popSpan_cons sc m rest (by simpa using h)
  | cons l0 ls =>
    refine ⟨l0, ls ++ m :: rest, ?_, Or.inr ⟨List.mem_cons_self _ _, ls, rfl, ?_⟩⟩
    · exact popSpan_cons sc l0 (ls ++ m :: rest) (by simpa using h)
    · intro x hx
      exact List.mem_cons_of_mem _ hx

theorem skipWhileGo_inv (source : List Char) (p : Char → Bool) (cs : List Char) :
    ∀ sc : Scanner, sc.chars = cs → sc.tracks source →
      (Scanner.skipWhileGo p cs sc).tracks source ∧
      (Scanner.skipWhileGo p cs sc).markers = sc.markers ∧
      sc.index ≤ (Scanner.skipWhileGo p cs sc).index := by
  induction cs with
  | nil =>
    intro sc _ ht
    exact ⟨ht, rfl, Nat.le_refl _⟩
  | cons c rest ih =>
    intro sc hch ht
    simp only [Scanner.skipWhileGo]
    split
    · have hadv := tracks_advance source sc c rest ht hch
      obtain ⟨ha, hb, hc⟩ := ih (sc.advance c rest) rfl hadv
      refine ⟨ha, by rw [hb]; rfl, ?_⟩
      refine Nat.le_trans ?_ hc
      show sc.index ≤ sc.index + 1
      omega
    · exact ⟨ht, rfl, Nat.le_refl _⟩

theorem skipWhile_inv (source : List Char) (p : Char → Bool) (sc : Scanner)
    (ht : sc.tracks source) :
    (Scanner.skipWhile p sc).tracks source ∧
    (Scanner.skipWhile p sc).markers = sc.markers ∧
    sc.index ≤ (Scanner.skipWhile p sc).index :=
  skipWhileGo_inv source p sc.chars sc rfl ht

theorem takeWhileGo_inv (source : List Char) (p : Char → Bool) (cs : List Char) :
    ∀ (sc : Scanner) (l : List Char) (sc2 : Scanner), sc.chars = cs → sc.tracks source →
      Scanner.takeWhileGo p cs sc = (l, sc2) →
      sc2.tracks source ∧ sc2.markers = sc.markers ∧
      sc2.index = sc.index + l.length ∧ sc.chars = l ++ sc2.chars := by
  induction cs with
  | nil =>
    intro sc l sc2 hch ht heq
    simp only [Scanner.takeWhileGo, Prod.mk.injEq] at heq
    obtain ⟨h1, h2⟩ := heq
    subst h1
    subst h2
    exact ⟨ht, rfl, by simp, by simp [hch]⟩
  | cons c rest ih =>
    intro sc l sc2 hch ht heq
    simp only [Scanner.takeWhileGo] at heq
    split at heq
    · rcases htw : Scanner.takeWhileGo p rest (sc.advance c rest) with ⟨l1, s1⟩
      rw [htw] at heq
      simp only [Prod.mk.injEq] at heq
      obtain ⟨h1, h2⟩ := heq
      subst h1
      subst h2
      have hadv := tracks_advance source sc c rest ht hch
      obtain ⟨ha, hb, hc, hd⟩ := ih (sc.advance c rest) l1 s1 rfl hadv htw
      refine ⟨ha, by rw [hb]; rfl, ?_, ?_⟩
      · rw [hc]
        show sc.index + 1 + l1.length = sc.index + (c :: l1).length
        rw [List.length_cons]
        omega
      · rw [hch, List.cons_append]
        have hd2 : rest = l1 ++ s1.chars := hd
        rw [← hd2]
    · simp only [Prod.mk.injEq] at heq
      obtain ⟨h1, h2⟩ := heq
      subst h1
      subst h2
      exact ⟨ht, rfl, by simp, by simp⟩

theorem takeWhile_inv (source : List Char) (p : Char → Bool) (sc : Scanner)
    (l : List Char) (sc2 : Scanner) (ht : sc.tracks source)
    (heq : Scanner.takeWhile p sc = (l, sc2)) :
    sc2.tracks source ∧ sc2.markers = sc.markers ∧
    sc2.index = sc.index + l.length ∧ sc.chars = l ++ sc2.chars :=
  takeWhileGo_inv source p sc.chars sc l sc2 rfl ht heq

theorem takeIfNext_go_eq (ws : List Char) :
    ∀ (rest : List Char) (sc : Scanner), sc.chars = ws ++ rest →
      Scanner.takeIfNext.go ws.length sc = (ws, sc.steppedAll ws) := by
  induction ws with
  | nil =>
    intro rest sc _
    simp [Scanner.takeIfNext.go, Scanner.steppedAll]
  | cons w ws ih =>
    intro rest sc hch
    rw [List.length_cons]
    simp only [Scanner.takeIfNext.go]
    rw [hch]
    simp only [List.cons_append]
    rw [ih rest (sc.advance w (ws ++ rest)) rfl]
    have hst : sc.advance w (ws ++ rest) = sc.stepped w := by
      simp [Scanner.advance, Scanner.stepped, hch]
    rw [hst]
    rfl

theorem takeIfNext_eq (sc : Scanner) (w rest : List Char) (hch : sc.chars = w ++ rest) :
    sc.takeIfNext w = some (w, sc.steppedAll w) := by
  rw [Scanner.takeIfNext, if_pos]
  · rw [takeIfNext_go_eq w rest sc hch]
  · rw [Scanner.isNext, hch]
    exact List.isPrefixOf_iff_prefix.mpr ⟨rest, rfl⟩

theorem takeIfNext_some (sc : Scanner) (w l : List Char) (sc2 : Scanner)
    (h : sc.takeIfNext w = some (l, sc2)) : ∃ rest, sc.chars = w ++ rest := by
  rw [Scanner.takeIfNext] at h
  split at h
  · next hp =>
    rw [Scanner.isNext] at hp
    obtain ⟨t, ht⟩ := List.isPrefixOf_iff_prefix.mp hp
    exact ⟨t, ht.symm⟩
  · exact absurd h (by simp)

theorem punctFind_inv (source : List Char) (ps : List (List Char × ShellTokenKind)) :
    ∀ (sc : Scanner) (v : ShellTokenKind) (sc2 : Scanner),
      sc.tracks source → punctFind ps sc = some (v, sc2) →
      ∃ k, (k, v) ∈ ps ∧ sc2.tracks source ∧ sc2.markers = sc.markers ∧
        sc2.index = sc.index + k.length ∧ sc.chars = k ++ sc2.chars := by
  induction ps with
  | nil =>
    intro sc v sc2 _ h
    simp [punctFind] at h
  | cons p ps ih =>
    intro sc v sc2 ht h
    obtain ⟨k, v0⟩ := p
    simp only [punctFind] at h
    split at h
    case _ l sc3 heq =>
      obtain ⟨rest, hrest⟩ := takeIfNext_some sc k l sc3 heq
      rw [takeIfNext_eq sc k rest hrest] at heq
      simp only [Option.some.injEq, Prod.mk.injEq] at heq
      obtain ⟨hl, hsc⟩ := heq
      simp only [Option.some.injEq, Prod.mk.injEq] at h
      obtain ⟨hv, hsc2⟩ := h
      subst hv
      refine ⟨k, List.mem_cons_self _ _, ?_, ?_, ?_, ?_⟩
      · rw [← hsc2, ← hsc]
        exact tracks_steppedAll source sc k rest ht hrest
      · rw [← hsc2, ← hsc, Scanner.steppedAll_markers]
      · rw [← hsc2, ← hsc, Scanner.steppedAll_index]
      · rw [← hsc2, ← hsc, Scanner.steppedAll_chars sc k rest hrest, hrest]
    case _ heq =>
      obtain ⟨k2, hmem, rest2⟩ := ih sc v sc2 ht h
      exact ⟨k2, List.mem_cons_of_mem _ hmem, rest2⟩

theorem tryLexPunct_inv (source : List Char) (lx : ShellLexer) (tk : ShellToken)
    (lx2 : ShellLexer) (hp : lx.punct = punctTable) (ht : lx.scanner.tracks source)
    (h : tryLexPunct lx = some (tk, lx2)) :
    lx2.scanner.tracks source ∧ lx2.scanner.markers = lx.scanner.markers ∧
    lx.scanner.index ≤ lx2.scanner.index ∧ lx2.mode = lx.mode ∧ lx2.punct = lx.punct ∧
    ∀ endIdx, spanFaithfulAt source endIdx tk := by
  simp only [tryLexPunct] at h
  split at h
  case _ v sc1 heq =>
    obtain ⟨k, hkmem, ht1, hm1, hi1, hch1⟩ :=
      punctFind_inv source lx.punct lx.scanner.pushMark v sc1
        (tracks_pushMark source lx.scanner ht) heq
    have hm2 : sc1.markers = lx.scanner.currentPos :: lx.scanner.markers := hm1
    rcases hps : sc1.popSpan with ⟨span, sc2⟩
    rw [hps] at h
    have hps2 := (popSpan_cons sc1 lx.scanner.currentPos lx.scanner.markers hm2).symm.trans hps
    simp only [Prod.mk.injEq] at hps2
    obtain ⟨hspan, hsc2⟩ := hps2
    subst hspan
    subst hsc2
    simp only [Option.some.injEq, Prod.mk.injEq] at h
    obtain ⟨h1, h2⟩ := h
    subst h1
    subst h2
    have hidx : sc1.index = lx.scanner.index + k.length := hi1
    have hch2 : lx.scanner.chars = k ++ sc1.chars := hch1
    have hslice : sliceSpan source ⟨lx.scanner.currentPos, sc1.currentPos⟩ = k := by
      simp only [sliceSpan]
      show (source.drop lx.scanner.index).take (sc1.index - lx.scanner.index) = k
      rw [← ht.1, hch2, hidx]
      simp
    have hkv : (k, v) ∈ punctTable := by rw [← hp]; exact hkmem
    refine ⟨⟨ht1.1, ht1.2⟩, rfl, ?_, rfl, rfl, ?_⟩
    · show lx.scanner.index ≤ sc1.index
      omega
    · simp only [punctTable, List.mem_cons, List.not_mem_nil, or_false] at hkv
      rcases hkv with hh|hh|hh|hh|hh|hh|hh|hh|hh|hh <;>
        (simp only [Prod.mk.injEq] at hh
         obtain ⟨hk2, hv2⟩ := hh
         subst hv2
         intro endIdx
         simp only [spanFaithfulAt]
         rw [← hk2]
         exact hslice)
  case _ => exact absurd h (by simp)

theorem tryLexUnquoted_inv (source : List Char) (lx : ShellLexer) (c : Char)
    (tk : ShellToken) (lx2 : ShellLexer) (ht : lx.scanner.tracks source)
    (h : tryLexUnquoted lx c = some (tk, lx2)) :
    lx2.scanner.tracks source ∧ lx2.scanner.markers = lx.scanner.markers ∧
    lx.scanner.index ≤ lx2.scanner.index ∧ lx2.mode = lx.mode ∧ lx2.punct = lx.punct ∧
    ∀ endIdx, spanFaithfulAt source endIdx tk := by
  simp only [tryLexUnquoted] at h
  split at h
  · exact absurd h (by simp)
  · rcases htw : Scanner.takeWhile unquotedPred lx.scanner.pushMark with ⟨s, sc1⟩
    rw [htw] at h
    obtain ⟨ht1, hm1, hi1, hch1⟩ :=
      takeWhile_inv source unquotedPred lx.scanner.pushMark s sc1
        (tracks_pushMark source lx.scanner ht) htw
    have hm2 : sc1.markers = lx.scanner.currentPos :: lx.scanner.markers := hm1
    rcases hps : sc1.popSpan with ⟨span, sc2⟩
    rw [hps] at h
    have hps2 := (popSpan_cons sc1 lx.scanner.currentPos lx.scanner.markers hm2).symm.trans hps
    simp only [Prod.mk.injEq] at hps2
    obtain ⟨hspan, hsc2⟩ := hps2
    subst hspan
    subst hsc2
    simp only [Option.some.injEq, Prod.mk.injEq] at h
    obtain ⟨h1, h2⟩ := h
    subst h1
    subst h2
    have hidx : sc1.index = lx.scanner.index + s.length := hi1
    have hch2 : lx.scanner.chars = s ++ sc1.chars := hch1
    refine ⟨⟨ht1.1, ht1.2⟩, rfl, ?_, rfl, rfl, ?_⟩
    · show lx.scanner.index ≤ sc1.index
      omega
    · intro endIdx
      simp only [spanFaithfulAt]
      left
      simp only [sliceSpan]
      show (source.drop lx.scanner.index).take (sc1.index - lx.scanner.index) = s
      rw [← ht.1, hch2, hidx]
      simp

/-- Transport of the quoted-string loop over a run of plain characters
(no opener, no backslash, no brace): each such character is consumed
into the buffer, one iteration apiece, with the flags staying off. -/
theorem quotedLoop_plain (cs : List Char) (F fuel : Nat) (term : Char)
    (punct : List (List Char × ShellTokenKind)) (sc : Scanner)
    (toks : List ShellToken) (buf : List Char) (rest : List Char)
    (hcs : ∀ c ∈ cs, c ≠ term ∧ c ≠ '\\' ∧ c ≠ '{')
    (hch : sc.chars = cs ++ rest)
    (hF : F = cs.length + fuel + 1) :
    quotedLoop F term punct sc toks buf false false =
      quotedLoop (fuel + 1) term punct (sc.steppedAll cs) toks (buf ++ cs) false false := by
  subst hF
  induction cs generalizing sc buf with
  | nil => simp [Scanner.steppedAll]
  | cons c cs ih =>
    obtain ⟨hterm, hbs, hbr⟩ := hcs c (List.mem_cons_self c cs)
    have hcs' : ∀ x ∈ cs, x ≠ term ∧ x ≠ '\\' ∧ x ≠ '{' :=
      fun x hx => hcs x (List.mem_cons_of_mem c hx)
    obtain ⟨chars, markers, index, line, column⟩ := sc
    simp only at hch
    subst hch
    rw [show (c :: cs).length + fuel + 1 = (cs.length + fuel + 1) + 1 by
      simp [List.length_cons]; omega]
    generalize hm : fuel + 1 = m
    generalize hn : cs.length + fuel + 1 = n
    rw [hm, hn] at ih
    simp only [quotedLoop, List.cons_append]
    rw [if_neg hterm, if_neg hbs, if_neg hbr]
    simp only [Bool.false_eq_true, if_false, Scanner.advance]
    rw [ih _ _ hcs' rfl]
    simp [Scanner.steppedAll, Scanner.stepped]

set_option maxHeartbeats 1000000 in
/-- When the scanner is exhausted, one `tokenize` iteration appends the
zero-length `EndOfInput` token at the current position and stops (the
mark pushed by the finish step is popped again, so the lexer state is
unchanged). -/
theorem tokenizeTokens_empty (fuel : Nat) (lx : ShellLexer) (acc : List ShellToken)
    (h : lx.scanner.chars = []) :
    tokenizeTokens (fuel + 1) lx acc =
      .ok (acc ++ [⟨.endOfInput, ⟨lx.scanner.currentPos, lx.scanner.currentPos⟩⟩], lx) := by
  obtain ⟨⟨chars, markers, index, line, column⟩, mode, punct⟩ := lx
  simp only at h
  subst h
  simp only [tokenizeTokens, finishEOI, Scanner.isEmpty, List.isEmpty_nil, if_true,
    Scanner.pushMark, Scanner.popSpan, Scanner.currentPos]

theorem TokNE_of_not_interp (t : ShellToken) (h : ∀ ch, t.kind ≠ .interp ch) : TokNE t := by
  obtain ⟨k, sp⟩ := t
  exact TokNE.other k sp h

theorem finishEOI_eq (lx : ShellLexer) (acc : List ShellToken) :
    finishEOI lx acc =
      .ok (acc ++ [⟨.endOfInput, ⟨lx.scanner.currentPos, lx.scanner.currentPos⟩⟩], lx) := by
  obtain ⟨⟨chars, markers, index, line, column⟩, mode, punct⟩ := lx
  simp [finishEOI, Scanner.pushMark, Scanner.popSpan, Scanner.currentPos]

theorem punctFind_mem (ps : List (List Char × ShellTokenKind)) (sc : Scanner)
    (v : ShellTokenKind) (sc' : Scanner) (h : punctFind ps sc = some (v, sc')) :
    ∃ p ∈ ps, p.2 = v := by
  induction ps with
  | nil => simp [punctFind] at h
  | cons p ps ih =>
    obtain ⟨k, v0⟩ := p
    simp only [punctFind] at h
    split at h
    · simp only [Option.some.injEq, Prod.mk.injEq] at h
      exact ⟨(k, v0), List.mem_cons_self _ _, h.1⟩
    · obtain ⟨q, hq, hv⟩ := ih h
      exact ⟨q, List.mem_cons_of_mem _ hq, hv⟩

theorem tryLexPunct_shape (lx : ShellLexer) (tk : ShellToken) (lx' : ShellLexer)
    (h : tryLexPunct lx = some (tk, lx')) :
    (∃ p ∈ lx.punct, p.2 = tk.kind) ∧ lx'.punct = lx.punct := by
  simp only [tryLexPunct] at h
  split at h
  case _ v sc1 heq =>
    rcases hps : sc1.popSpan with ⟨span, sc2⟩
    rw [hps] at h
    simp only [Option.some.injEq, Prod.mk.injEq] at h
    obtain ⟨h1, h2⟩ := h
    subst h1
    subst h2
    exact ⟨punctFind_mem _ _ _ _ heq, rfl⟩
  case _ => exact absurd h (by simp)

theorem tryLexUnquoted_shape (lx : ShellLexer) (c : Char) (tk : ShellToken)
    (lx' : ShellLexer) (h : tryLexUnquoted lx c = some (tk, lx')) :
    (∃ s, tk.kind = .str s) ∧ lx'.punct = lx.punct := by
  simp only [tryLexUnquoted] at h
  split at h
  · exact absurd h (by simp)
  · rcases htw : Scanner.takeWhile unquotedPred lx.scanner.pushMark with ⟨s, sc1⟩
    rw [htw] at h
    rcases hps : sc1.popSpan with ⟨span, sc2⟩
    rw [hps] at h
    simp only [Option.some.injEq, Prod.mk.injEq] at h
    obtain ⟨h1, h2⟩ := h
    subst h1
    subst h2
    exact ⟨⟨_, rfl⟩, rfl⟩

/-- A punctuation table without `Interp` values (true of the source's
table, whose values are the eight punctuation kinds). -/
def PunctOk (ps : List (List Char × ShellTokenKind)) : Prop :=
  ∀ p ∈ ps, ∀ ch, p.2 ≠ ShellTokenKind.interp ch

theorem TokNE_append_singleton (l : List ShellToken) (x : ShellToken)
    (hl : ∀ t ∈ l, TokNE t) (hx : TokNE x) : ∀ t ∈ l ++ [x], TokNE t := by
  intro t ht
  rcases List.mem_append.mp ht with h | h
  · exact hl t h
  · simp only [List.mem_singleton] at h
    subst h
    exact hx

/-- The lexer invariant behind the amended C6: every token any of the
three mutually recursive lexer functions emits satisfies `TokNE`, and a
successful `tokenize` returns a non-empty vector. -/
theorem lexNE (fuel : Nat) :
    (∀ lx acc, PunctOk lx.punct → (∀ t ∈ acc, TokNE t) →
      ∀ toks lx', tokenizeTokens fuel lx acc = .ok (toks, lx') →
        (∀ t ∈ toks, TokNE t) ∧ toks ≠ []) ∧
    (∀ lx c, PunctOk lx.punct →
      ∀ tk lx', tryLexQuoted fuel lx c = .ok (some (tk, lx')) →
        TokNE tk ∧ lx'.punct = lx.punct) ∧
    (∀ term punct sc toks buf mark take, PunctOk punct → (∀ t ∈ toks, TokNE t) →
      ∀ toks' buf' sc', quotedLoop fuel term punct sc toks buf mark take =
          .ok (toks', buf', sc') →
        ∀ t ∈ toks', TokNE t) := by
  induction fuel with
  | zero =>
    refine ⟨?_, ?_, ?_⟩
    · intro lx acc _ _ toks lx' h
      exact absurd h (by simp [tokenizeTokens])
    · intro lx c _ tk lx' h
      exact absurd h (by simp [tryLexQuoted])
    · intro term punct sc toks buf mark take _ _ toks' buf' sc' h
      exact absurd h (by simp [quotedLoop])
  | succ fuel ih =>
    obtain ⟨ih1, ih2, ih3⟩ := ih
    have heoiNE : ∀ (sp : TextSpan) (acc : List ShellToken), (∀ t ∈ acc, TokNE t) →
        (∀ t ∈ acc ++ [⟨ShellTokenKind.endOfInput, sp⟩], TokNE t) ∧
          acc ++ [(⟨ShellTokenKind.endOfInput, sp⟩ : ShellToken)] ≠ [] := by
      intro sp acc hacc
      refine ⟨TokNE_append_singleton _ _ hacc ?_, by simp⟩
      exact TokNE_of_not_interp _ (by intro ch; simp [ShellToken.kind])
    refine ⟨?_, ?_, ?_⟩
    · -- tokenizeTokens
      intro lx acc hp hacc toks lx' h
      obtain ⟨sc0, mode0, punct0⟩ := lx
      simp only at hp
      simp only [tokenizeTokens, finishEOI_eq] at h
      split at h
      · simp only [Res.ok.injEq, Prod.mk.injEq] at h
        obtain ⟨h1, -⟩ := h
        subst h1
        exact heoiNE _ _ hacc
      · split at h
        · simp only [Res.ok.injEq, Prod.mk.injEq] at h
          obtain ⟨h1, -⟩ := h
          subst h1
          exact heoiNE _ _ hacc
        · split at h
          · exact absurd h (by simp)
          · split at h
            · simp only [Res.ok.injEq, Prod.mk.injEq] at h
              obtain ⟨h1, -⟩ := h
              subst h1
              exact heoiNE _ _ hacc
            · split at h
              case _ tk lx2 heq =>
                obtain ⟨htk, hpq⟩ := ih2 _ _ hp _ _ heq
                exact ih1 lx2 (acc ++ [tk]) (by rw [hpq]; exact hp)
                  (TokNE_append_singleton _ _ hacc htk) toks lx' h
              case _ heq =>
                split at h
                case _ tk lx2 heq2 =>
                  obtain ⟨⟨p, hpmem, hpv⟩, hpq⟩ := tryLexPunct_shape _ _ _ heq2
                  refine ih1 lx2 (acc ++ [tk]) (by rw [hpq]; exact hp)
                    (TokNE_append_singleton _ _ hacc ?_) toks lx' h
                  exact TokNE_of_not_interp _
                    (by intro ch hk; exact hp p hpmem ch (hpv.trans hk))
                case _ heq2 =>
                  split at h
                  case _ tk lx2 heq3 =>
                    obtain ⟨⟨s, hs⟩, hpq⟩ := tryLexUnquoted_shape _ _ _ _ heq3
                    refine ih1 lx2 (acc ++ [tk]) (by rw [hpq]; exact hp)
                      (TokNE_append_singleton _ _ hacc ?_) toks lx' h
                    exact TokNE_of_not_interp _ (by intro ch; rw [hs]; simp)
                  case _ heq3 =>
                    exact absurd h (by simp)
              case _ e heq => exact absurd h (by simp)
              case _ heq => exact absurd h (by simp)
              case _ heq => exact absurd h (by simp)
    · -- tryLexQuoted
      intro lx c hp tk lx' h
      obtain ⟨sc0, mode0, punct0⟩ := lx
      simp only at hp
      simp only [tryLexQuoted] at h
      split at h
      · exact absurd h (by simp)
      · split at h
        · exact absurd h (by simp)
        · case _ term sc1 heqc =>
          split at h
          case _ toks0 buf0 sc3 heql =>
            have htoks0 : ∀ t ∈ toks0, TokNE t :=
              ih3 _ _ _ _ _ _ _ hp (by simp) _ _ _ heql
            split at h
            · exact absurd h (by simp)
            · split at h
              · exact absurd h (by simp)
              · split at h
                · -- Interp with a trailing buffered String child
                  case _ hbuf =>
                  simp only [Res.ok.injEq, Option.some.injEq, Prod.mk.injEq] at h
                  obtain ⟨h1, h2⟩ := h
                  subst h1
                  refine ⟨TokNE.interp _ _ (by simp) ?_, by rw [← h2]⟩
                  refine TokNE_append_singleton _ _ htoks0 ?_
                  exact TokNE_of_not_interp _ (by intro ch; simp [ShellToken.kind])
                · -- simple String, or Interp with empty tail buffer
                  case _ hbuf =>
                  simp only [Res.ok.injEq, Option.some.injEq, Prod.mk.injEq] at h
                  obtain ⟨h1, h2⟩ := h
                  subst h1
                  refine ⟨?_, by rw [← h2]⟩
                  by_cases hti : toks0.isEmpty
                  · rw [if_neg (by simp [hti])]
                    exact TokNE_of_not_interp _ (by intro ch; simp [ShellToken.kind])
                  · rw [if_pos (by simp [Bool.not_eq_true] at hti ⊢; simp [hti])]
                    refine TokNE.interp _ _ ?_ htoks0
                    intro hnil
                    subst hnil
                    simp at hti
          case _ e heql => exact absurd h (by simp)
          case _ heql => exact absurd h (by simp)
          case _ heql => exact absurd h (by simp)
    · -- quotedLoop
      intro term punct sc toks buf mark take hp htoks toks' buf' sc' h
      simp only [quotedLoop] at h
      split at h
      · simp only [Res.ok.injEq, Prod.mk.injEq] at h
        obtain ⟨h1, -⟩ := h
        subst h1
        exact htoks
      · split at h
        · simp only [Res.ok.injEq, Prod.mk.injEq] at h
          obtain ⟨h1, -⟩ := h
          subst h1
          exact htoks
        · split at h
          · exact ih3 _ _ _ _ _ _ _ hp htoks _ _ _ h
          · split at h
            · exact ih3 _ _ _ _ _ _ _ hp htoks _ _ _ h
            · split at h
              · split at h
                · exact ih3 _ _ _ _ _ _ _ hp htoks _ _ _ h
                · exact ih3 _ _ _ _ _ _ _ hp htoks _ _ _ h
              · split at h
                · -- the brace branch: recursive tokenize of the sub-expression
                  split at h
                  · exact absurd h (by simp)
                  · split at h
                    case _ tks ilx heqt =>
                      obtain ⟨htks, hne⟩ := ih1 _ _ hp (by simp) _ _ heqt
                      split at h
                      · exact absurd h (by simp)
                      · split at h
                        · exact absurd h (by simp)
                        · refine ih3 _ _ _ _ _ _ _ hp ?_ _ _ _ h
                          refine TokNE_append_singleton _ _ ?_ (TokNE.interp _ _ hne htks)
                          refine TokNE_append_singleton _ _ htoks ?_
                          exact TokNE_of_not_interp _ (by intro ch; simp [ShellToken.kind])
                    case _ e heqt => exact absurd h (by simp)
                    case _ heqt => exact absurd h (by simp)
                    case _ heqt => exact absurd h (by simp)
                · exact ih3 _ _ _ _ _ _ _ hp htoks _ _ _ h

theorem isEmpty_chars (sc : Scanner) (h : sc.isEmpty = true) : sc.chars = [] := by
  rw [Scanner.isEmpty] at h
  cases hc : sc.chars with
  | nil => rfl
  | cons a l => rw [hc] at h; simp at h

theorem mem_app_single {α : Type} (t x : α) (l : List α) (h : t ∈ l ++ [x]) :
    t ∈ l ∨ t = x := by
  rcases List.mem_append.mp h with h2 | h2
  · exact Or.inl h2
  · simp only [List.mem_singleton] at h2
    exact Or.inr h2

theorem charAt_of_cons (source : List Char) (sc : Scanner) (c : Char) (rest : List Char)
    (ht : sc.tracks source) (hch : sc.chars = c :: rest) :
    charAt source sc.index = some c := by
  rw [charAt_eq_head source sc ht, hch]
  rfl

theorem strayList_mono (source : List Char) (S : List Location) (i j : Nat) (hij : i ≤ j)
    (hS : ∀ m ∈ S, strayMarkIdx source m.index ∧ m.index ≤ i) :
    ∀ m ∈ S, strayMarkIdx source m.index ∧ m.index ≤ j :=
  fun m hm => ⟨(hS m hm).1, Nat.le_trans (hS m hm).2 hij⟩

theorem strayList_append (source : List Char) (S T : List Location) (j : Nat)
    (hS : ∀ m ∈ S, strayMarkIdx source m.index ∧ m.index ≤ j)
    (hT : ∀ m ∈ T, strayMarkIdx source m.index ∧ m.index ≤ j) :
    ∀ m ∈ S ++ T, strayMarkIdx source m.index ∧ m.index ≤ j := by
  intro m hm
  rcases List.mem_append.mp hm with hw | hw
  · exact hS m hw
  · exact hT m hw

theorem popSpan_fst (sc : Scanner) (m : Location) (rest : List Location)
    (h : sc.markers = m :: rest) : (sc.popSpan).1 = ⟨m, sc.currentPos⟩ := by
  rw [popSpan_cons sc m rest h]

theorem popSpan_snd (sc : Scanner) (m : Location) (rest : List Location)
    (h : sc.markers = m :: rest) : (sc.popSpan).2 = { sc with markers := rest } := by
  rw [popSpan_cons sc m rest h]

/-- Popping a span through the components, when the mark stack is
`L ++ m :: rest`: the span starts at `m` itself when `L` is empty, and
otherwise at some stray mark out of `L`. -/
theorem popSpan_split2 (sc : Scanner) (L : List Location) (m : Location)
    (rest : List Location) (h : sc.markers = L ++ m :: rest) :
    ∃ m2 tl, (sc.popSpan).1 = ⟨m2, sc.currentPos⟩ ∧
      (sc.popSpan).2 = { sc with markers := tl } ∧
      ((m2 = m ∧ tl = rest ∧ L = []) ∨
       (m2 ∈ L ∧ ∃ L2, tl = L2 ++ m :: rest ∧ ∀ x ∈ L2, x ∈ L)) := by
  obtain ⟨m2, tl, heq, hcase⟩ := popSpan_split sc L m rest h
  exact ⟨m2, tl, by rw [heq], by rw [heq], hcase⟩

theorem app3_exists {α : Type} (toks x y z l : List α) (h : l = ((toks ++ x) ++ y) ++ z) :
    ∃ e, l = toks ++ e := ⟨x ++ (y ++ z), by rw [h]; simp⟩

set_option maxHeartbeats 1600000 in
/-- The lexer span invariant behind the amended C5: relative to a source
the lexer's scanner tracks, every token the three mutually recursive
lexer functions emit satisfies `spanFaithfulAt`; the scanner keeps
tracking the source, its index only grows, and the mark stack grows only
by stray marks (`try_lex_quoted` pushes two marks but its final pop
reaches only one of them whenever no trailing buffered child is
flushed, so opener marks leak). -/
theorem lexSpans (source : List Char) (fuel : Nat) :
    (∀ lx acc toks lx2,
      lx.punct = punctTable → lx.scanner.tracks source →
      tokenizeTokens fuel lx acc = .ok (toks, lx2) →
      lx2.scanner.tracks source ∧
      lx.scanner.index ≤ lx2.scanner.index ∧
      lx2.mode = lx.mode ∧ lx2.punct = punctTable ∧
      (∃ leaks, lx2.scanner.markers = leaks ++ lx.scanner.markers ∧
        ∀ m ∈ leaks, strayMarkIdx source m.index ∧ m.index ≤ lx2.scanner.index) ∧
      (lx.mode = .normal → lx2.scanner.chars = []) ∧
      (∀ t ∈ toks, t ∈ acc ∨ spanFaithfulAt source lx2.scanner.index t)) ∧
    (∀ lx c tk lx2,
      lx.punct = punctTable → lx.scanner.tracks source → lx.scanner.peek = some c →
      tryLexQuoted fuel lx c = .ok (some (tk, lx2)) →
      lx2.scanner.tracks source ∧
      lx.scanner.index < lx2.scanner.index ∧
      lx2.mode = lx.mode ∧ lx2.punct = punctTable ∧
      (∃ leaks, lx2.scanner.markers = leaks ++ lx.scanner.markers ∧
        ∀ m ∈ leaks, strayMarkIdx source m.index ∧ m.index ≤ lx2.scanner.index) ∧
      (∀ endIdx, spanFaithfulAt source endIdx tk)) ∧
    (∀ term sc toks buf mark take toks2 buf2 sc2 stuff rest0,
      sc.tracks source →
      sc.markers = stuff ++ rest0 →
      (∀ m ∈ stuff, strayMarkIdx source m.index ∧ m.index ≤ sc.index) →
      (mark = false → stuff ≠ []) →
      (mark = true → buf = [] ∧ toks ≠ [] ∧ 1 ≤ sc.index ∧
        charAt source (sc.index - 1) = some '}') →
      quotedLoop fuel term punctTable sc toks buf mark take = .ok (toks2, buf2, sc2) →
      sc2.tracks source ∧ sc.index ≤ sc2.index ∧
      (∃ ext, toks2 = toks ++ ext) ∧
      (∃ stuff2, sc2.markers = stuff2 ++ rest0 ∧
        (∀ m ∈ stuff2, strayMarkIdx source m.index ∧ m.index ≤ sc2.index) ∧
        (buf2 ≠ [] → stuff2 ≠ [])) ∧
      (toks2 = [] → sc2.markers = sc.markers)) := by
  induction fuel with
  | zero =>
    refine ⟨?_, ?_, ?_⟩
    · intro lx acc toks lx2 _ _ h
      exact absurd h (by simp [tokenizeTokens])
    · intro lx c tk lx2 _ _ _ h
      exact absurd h (by simp [tryLexQuoted])
    · intro term sc toks buf mark take toks2 buf2 sc2 stuff rest0 _ _ _ _ _ h
      exact absurd h (by simp [quotedLoop])
  | succ fuel ih =>
    obtain ⟨ih1, ih2, ih3⟩ := ih
    refine ⟨?_, ?_, ?_⟩
    · -- tokenizeTokens
      intro lx acc toks lx2 hp ht h
      obtain ⟨sc0, mode0, punct0⟩ := lx
      simp only at hp ht
      obtain ⟨hskt, hskm, hski⟩ := skipWhile_inv source rustIsWhitespace sc0 ht
      have hcompose : ∀ (lxq : ShellLexer) (tk0 : ShellToken),
          lxq.scanner.tracks source →
          (Scanner.skipWhile rustIsWhitespace sc0).index ≤ lxq.scanner.index →
          lxq.mode = mode0 → lxq.punct = punctTable →
          (∃ leaks, lxq.scanner.markers = leaks ++ sc0.markers ∧
            ∀ m ∈ leaks, strayMarkIdx source m.index ∧ m.index ≤ lxq.scanner.index) →
          (∀ endIdx, spanFaithfulAt source endIdx tk0) →
          tokenizeTokens fuel lxq (acc ++ [tk0]) = .ok (toks, lx2) →
          (lx2.scanner.tracks source ∧
            sc0.index ≤ lx2.scanner.index ∧
            lx2.mode = mode0 ∧ lx2.punct = punctTable ∧
            (∃ leaks, lx2.scanner.markers = leaks ++ sc0.markers ∧
              ∀ m ∈ leaks, strayMarkIdx source m.index ∧ m.index ≤ lx2.scanner.index) ∧
            (mode0 = .normal → lx2.scanner.chars = []) ∧
            (∀ t ∈ toks, t ∈ acc ∨ spanFaithfulAt source lx2.scanner.index t)) := by
        rintro lxq tk0 htq hiq hmq hpq ⟨leaks, hlkq, hlkf⟩ hfq hrec
        obtain ⟨r1, r2, r3, r4, r5, r6, r7⟩ := ih1 lxq (acc ++ [tk0]) toks lx2 hpq htq hrec
        obtain ⟨leaks2, hlk2, hlk2f⟩ := r5
        refine ⟨r1, by omega, by rw [r3, hmq], r4, ?_, ?_, ?_⟩
        · refine ⟨leaks2 ++ leaks, ?_, ?_⟩
          · rw [hlk2, hlkq, List.append_assoc]
          · exact strayList_append source leaks2 leaks _ hlk2f
              (strayList_mono source leaks _ _ r2 hlkf)
        · intro hn
          exact r6 (by rw [hmq]; exact hn)
        · intro t htk
          rcases r7 t htk with hin | hf
          · rcases mem_app_single t tk0 acc hin with h2 | h2
            · exact Or.inl h2
            · exact Or.inr (by rw [h2]; exact hfq _)
          · exact Or.inr hf
      simp only [tokenizeTokens, finishEOI_eq] at h
      split at h
      · rename_i hcond
        simp only [Res.ok.injEq, Prod.mk.injEq] at h
        obtain ⟨h1, h2⟩ := h
        subst h1
        subst h2
        refine ⟨ht, Nat.le_refl _, rfl, hp, ⟨[], by simp, by simp⟩,
          fun _ => isEmpty_chars _ hcond, ?_⟩
        intro t htk
        rcases mem_app_single t _ acc htk with h2 | h2
        · exact Or.inl h2
        · refine Or.inr ?_
          rw [h2]
          simp only [spanFaithfulAt]
          exact ⟨rfl, rfl⟩
      · split at h
        · rename_i hcond
          simp only [Res.ok.injEq, Prod.mk.injEq] at h
          obtain ⟨h1, h2⟩ := h
          subst h1
          subst h2
          refine ⟨hskt, hski, rfl, hp, ⟨[], by simp [hskm], by simp⟩,
            fun _ => isEmpty_chars _ hcond, ?_⟩
          intro t htk
          rcases mem_app_single t _ acc htk with h2 | h2
          · exact Or.inl h2
          · refine Or.inr ?_
            rw [h2]
            simp only [spanFaithfulAt]
            exact ⟨rfl, rfl⟩
        · split at h
          · exact absurd h (by simp)
          · rename_i c heqp
            split at h
            · rename_i hcond
              simp only [Bool.and_eq_true, decide_eq_true_eq] at hcond
              simp only [Res.ok.injEq, Prod.mk.injEq] at h
              obtain ⟨h1, h2⟩ := h
              subst h1
              subst h2
              refine ⟨hskt, hski, rfl, hp, ⟨[], by simp [hskm], by simp⟩, ?_, ?_⟩
              · intro hn
                have hmi : mode0 = LexerMode.interp := hcond.1
                have hn2 : mode0 = LexerMode.normal := hn
                rw [hn2] at hmi
                exact absurd hmi (by simp)
              · intro t htk
                rcases mem_app_single t _ acc htk with h2 | h2
                · exact Or.inl h2
                · refine Or.inr ?_
                  rw [h2]
                  simp only [spanFaithfulAt]
                  exact ⟨rfl, rfl⟩
            · split at h
              case _ tk0 lxq heq =>
                obtain ⟨q1, q2, q3, q4, q5, q6⟩ := ih2 _ c tk0 lxq hp hskt heqp heq
                obtain ⟨lk, ha, hb⟩ := q5
                exact hcompose lxq tk0 q1 (Nat.le_of_lt q2) q3 q4
                  ⟨lk, by rw [ha]; simp [hskm], hb⟩ q6 h
              case _ heq =>
                split at h
                case _ tk0 lxq heq2 =>
                  obtain ⟨p1, p2, p3, p4, p5, p6⟩ :=
                    tryLexPunct_inv source _ tk0 lxq hp hskt heq2
                  exact hcompose lxq tk0 p1 p3 p4 (by rw [p5]; exact hp)
                    ⟨[], by rw [p2]; simp [hskm], by simp⟩ p6 h
                case _ heq2 =>
                  split at h
                  case _ tk0 lxq heq3 =>
                    obtain ⟨p1, p2, p3, p4, p5, p6⟩ :=
                      tryLexUnquoted_inv source _ c tk0 lxq hskt heq3
                    exact hcompose lxq tk0 p1 p3 p4 (by rw [p5]; exact hp)
                      ⟨[], by rw [p2]; simp [hskm], by simp⟩ p6 h
                  case _ heq3 => exact absurd h (by simp)
              case _ e heq => exact absurd h (by simp)
              case _ heq => exact absurd h (by simp)
              case _ heq => exact absurd h (by simp)
    · -- tryLexQuoted
      intro lx c tk lx2 hp ht hpk h
      obtain ⟨sc0, mode0, punct0⟩ := lx
      simp only at hp ht hpk
      obtain ⟨ctl, hch0⟩ : ∃ tl, sc0.chars = c :: tl := by
        cases hc : sc0.chars with
        | nil => rw [Scanner.peek, hc] at hpk; simp at hpk
        | cons a tl =>
          rw [Scanner.peek, hc] at hpk
          simp only [List.head?_cons, Option.some.injEq] at hpk
          exact ⟨tl, by rw [hpk]⟩
      have hcA : charAt source sc0.index = some c := charAt_of_cons source sc0 c ctl ht hch0
      simp only [tryLexQuoted] at h
      split at h
      · exact absurd h (by simp)
      · rename_i hq
        have hqc : isQuoteChar c = true := by
          simp only [ne_eq, not_and_or, not_not] at hq
          rcases hq with hh | hh | hh <;> simp [isQuoteChar, hh]
        split at h
        · exact absurd h (by simp)
        · case _ term sc1 heqc =>
          have hid := (Scanner.consume_eq_advance sc0.pushMark c ctl hch0).symm.trans heqc
          simp only [Option.some.injEq, Prod.mk.injEq] at hid
          obtain ⟨hterm, hsc1⟩ := hid
          subst hterm
          subst hsc1
          split at h
          case _ toks0 buf0 sc3 heql =>
            rw [hp] at heql
            have htr1 : ((sc0.pushMark).advance c ctl).tracks source :=
              tracks_advance source sc0.pushMark c ctl (tracks_pushMark source sc0 ht) hch0
            have htr2 : (((sc0.pushMark).advance c ctl).pushMark).tracks source :=
              tracks_pushMark source _ htr1
            have hstuffB : ∀ m ∈ [((sc0.pushMark).advance c ctl).currentPos],
                strayMarkIdx source m.index ∧
                m.index ≤ (((sc0.pushMark).advance c ctl).pushMark).index := by
              intro m hm
              simp only [List.mem_singleton] at hm
              subst hm
              refine ⟨Or.inr (Or.inl ⟨?_, c, hqc, ?_⟩), ?_⟩
              · show 1 ≤ sc0.index + 1
                omega
              · show charAt source (sc0.index + 1 - 1) = some c
                simpa using hcA
              · show sc0.index + 1 ≤ sc0.index + 1
                omega
            obtain ⟨g1, g2, g3, g4, g5⟩ := ih3 c (((sc0.pushMark).advance c ctl).pushMark)
              [] [] false false toks0 buf0 sc3
              [((sc0.pushMark).advance c ctl).currentPos] (sc0.currentPos :: sc0.markers)
              htr2 (by rfl) hstuffB (fun _ => by simp) (fun hx => absurd hx (by simp)) heql
            have hg2 : sc0.index + 1 ≤ sc3.index := g2
            obtain ⟨stuff2, hstf, hstfm, hbufc⟩ := g4
            split at h
            · exact absurd h (by simp)
            · case _ ch sc4 heqc4 =>
              cases hc3 : sc3.chars with
              | nil => simp [Scanner.consume, hc3] at heqc4
              | cons d dl =>
                have hid4 := (Scanner.consume_eq_advance sc3 d dl hc3).symm.trans heqc4
                simp only [Option.some.injEq, Prod.mk.injEq] at hid4
                obtain ⟨hdch, hsc4⟩ := hid4
                subst hsc4
                split at h
                · exact absurd h (by simp)
                · rename_i hchne
                  have hdc : d = c := hdch.trans (not_not.mp hchne)
                  rw [hdc] at hc3 h
                  have hcC : charAt source sc3.index = some c :=
                    charAt_of_cons source sc3 c dl g1 hc3
                  have ht4 : (sc3.advance c dl).tracks source :=
                    tracks_advance source sc3 c dl g1 hc3
                  split at h
                  · -- Interp with a trailing buffered String child
                    rename_i hcb
                    have hbufne : buf0 ≠ [] := by
                      rcases buf0 with _ | ⟨b0, bs⟩
                      · simp at hcb
                      · simp
                    obtain ⟨m1, stuffT, hstuffE⟩ : ∃ m1 stuffT, stuff2 = m1 :: stuffT := by
                      rcases hs2 : stuff2 with _ | ⟨m1, stuffT⟩
                      · exact absurd hs2 (hbufc hbufne)
                      · exact ⟨m1, stuffT, rfl⟩
                    subst hstuffE
                    have hm4 : (sc3.advance c dl).markers =
                        m1 :: (stuffT ++ (sc0.currentPos :: sc0.markers)) := by
                      show sc3.markers = _
                      rw [hstf]
                      rfl
                    rw [popSpan_fst (sc3.advance c dl) m1 _ hm4,
                        popSpan_snd (sc3.advance c dl) m1 _ hm4] at h
                    obtain ⟨m2, tl2, hf2, hs2b, hcase2⟩ :=
                      popSpan_split2 { sc3.advance c dl with
                          markers := stuffT ++ (sc0.currentPos :: sc0.markers) }
                        stuffT sc0.currentPos sc0.markers (by rfl)
                    rw [hf2, hs2b] at h
                    simp only [Res.ok.injEq, Option.some.injEq, Prod.mk.injEq] at h
                    obtain ⟨h1, h2⟩ := h
                    subst h1
                    subst h2
                    rcases hcase2 with ⟨hm2A, htl2, hTnil⟩ | ⟨hm2mem, L2, htl2, hsubL⟩
                    · subst hm2A
                      subst htl2
                      refine ⟨⟨ht4.1, ht4.2⟩, ?_, rfl, hp, ⟨[], by simp, by simp⟩, ?_⟩
                      · show sc0.index < sc3.index + 1
                        omega
                      · intro endIdx
                        simp only [spanFaithfulAt, quotedInterpSpan, strayMarkIdx]
                        refine ⟨c, hqc, ?_, ?_, Or.inl ⟨c, hqc, hcA⟩⟩
                        · show sc0.index < sc3.index + 1
                          omega
                        · show charAt source (sc3.index + 1 - 1) = some c
                          simpa using hcC
                    · refine ⟨⟨ht4.1, ht4.2⟩, ?_, rfl, hp, ?_, ?_⟩
                      · show sc0.index < sc3.index + 1
                        omega
                      · refine ⟨L2 ++ [sc0.currentPos], ?_, ?_⟩
                        · show tl2 = (L2 ++ [sc0.currentPos]) ++ sc0.markers
                          rw [htl2]
                          simp
                        · intro m hm
                          rcases List.mem_append.mp hm with hm | hm
                          · have hfact := hstfm m (List.mem_cons_of_mem m1 (hsubL m hm))
                            refine ⟨hfact.1, ?_⟩
                            have h5 := hfact.2
                            show m.index ≤ sc3.index + 1
                            omega
                          · simp only [List.mem_singleton] at hm
                            subst hm
                            refine ⟨Or.inl ⟨c, hqc, hcA⟩, ?_⟩
                            show sc0.index ≤ sc3.index + 1
                            omega
                      · intro endIdx
                        simp only [spanFaithfulAt, quotedInterpSpan]
                        have hfact := hstfm m2 (List.mem_cons_of_mem m1 hm2mem)
                        refine ⟨c, hqc, ?_, ?_, hfact.1⟩
                        · have h5 := hfact.2
                          show m2.index < sc3.index + 1
                          omega
                        · show charAt source (sc3.index + 1 - 1) = some c
                          simpa using hcC
                  · -- simple String, or Interp with an empty trailing buffer
                    rename_i hcb2
                    rcases toks0 with _ | ⟨t0, ts0⟩
                    · -- the simple String case pops the content mark
                      have hm4 : (sc3.advance c dl).markers =
                          (((sc0.pushMark).advance c ctl).currentPos) ::
                            (sc0.currentPos :: sc0.markers) := by
                        show sc3.markers = _
                        exact g5 rfl
                      rw [popSpan_fst (sc3.advance c dl) _ _ hm4,
                          popSpan_snd (sc3.advance c dl) _ _ hm4] at h
                      rw [if_neg (by simp)] at h
                      simp only [Res.ok.injEq, Option.some.injEq, Prod.mk.injEq] at h
                      obtain ⟨h1, h2⟩ := h
                      subst h1
                      subst h2
                      refine ⟨⟨ht4.1, ht4.2⟩, ?_, rfl, hp, ⟨[sc0.currentPos], ?_, ?_⟩, ?_⟩
                      · show sc0.index < sc3.index + 1
                        omega
                      · show sc0.currentPos :: sc0.markers = [sc0.currentPos] ++ sc0.markers
                        rfl
                      · intro m hm
                        simp only [List.mem_singleton] at hm
                        subst hm
                        refine ⟨Or.inl ⟨c, hqc, hcA⟩, ?_⟩
                        show sc0.index ≤ sc3.index + 1
                        omega
                      · intro endIdx
                        simp only [spanFaithfulAt, quotedStrSpan]
                        refine Or.inr ⟨c, hqc, ?_, ?_, ?_, ?_⟩
                        · show 1 ≤ sc0.index + 1
                          omega
                        · show sc0.index + 1 < sc3.index + 1
                          omega
                        · show charAt source (sc0.index + 1 - 1) = some c
                          simpa using hcA
                        · show charAt source (sc3.index + 1 - 1) = some c
                          simpa using hcC
                    · -- Interp with an empty trailing buffer
                      rw [if_pos (by simp)] at h
                      have hm4 : (sc3.advance c dl).markers =
                          stuff2 ++ (sc0.currentPos :: sc0.markers) := by
                        show sc3.markers = _
                        exact hstf
                      obtain ⟨m2, tl2, hf2, hs2b, hcase2⟩ :=
                        popSpan_split2 (sc3.advance c dl) stuff2 sc0.currentPos sc0.markers hm4
                      rw [hf2, hs2b] at h
                      simp only [Res.ok.injEq, Option.some.injEq, Prod.mk.injEq] at h
                      obtain ⟨h1, h2⟩ := h
                      subst h1
                      subst h2
                      rcases hcase2 with ⟨hm2A, htl2, hTnil⟩ | ⟨hm2mem, L2, htl2, hsubL⟩
                      · subst hm2A
                        subst htl2
                        refine ⟨⟨ht4.1, ht4.2⟩, ?_, rfl, hp, ⟨[], by simp, by simp⟩, ?_⟩
                        · show sc0.index < sc3.index + 1
                          omega
                        · intro endIdx
                          simp only [spanFaithfulAt, quotedInterpSpan, strayMarkIdx]
                          refine ⟨c, hqc, ?_, ?_, Or.inl ⟨c, hqc, hcA⟩⟩
                          · show sc0.index < sc3.index + 1
                            omega
                          · show charAt source (sc3.index + 1 - 1) = some c
                            simpa using hcC
                      · refine ⟨⟨ht4.1, ht4.2⟩, ?_, rfl, hp, ?_, ?_⟩
                        · show sc0.index < sc3.index + 1
                          omega
                        · refine ⟨L2 ++ [sc0.currentPos], ?_, ?_⟩
                          · show tl2 = (L2 ++ [sc0.currentPos]) ++ sc0.markers
                            rw [htl2]
                            simp
                          · intro m hm
                            rcases List.mem_append.mp hm with hm | hm
                            · have hfact := hstfm m (hsubL m hm)
                              refine ⟨hfact.1, ?_⟩
                              have h5 := hfact.2
                              show m.index ≤ sc3.index + 1
                              omega
                            · simp only [List.mem_singleton] at hm
                              subst hm
                              refine ⟨Or.inl ⟨c, hqc, hcA⟩, ?_⟩
                              show sc0.index ≤ sc3.index + 1
                              omega
                        · intro endIdx
                          simp only [spanFaithfulAt, quotedInterpSpan]
                          have hfact := hstfm m2 hm2mem
                          refine ⟨c, hqc, ?_, ?_, hfact.1⟩
                          · have h5 := hfact.2
                            show m2.index < sc3.index + 1
                            omega
                          · show charAt source (sc3.index + 1 - 1) = some c
                            simpa using hcC
          case _ e heql => exact absurd h (by simp)
          case _ heql => exact absurd h (by simp)
          case _ heql => exact absurd h (by simp)
    · -- quotedLoop
      intro term sc toks buf mark take toks2 buf2 sc2 stuff rest0 ht hmk hstuff hm2 hm3 h
      simp only [quotedLoop] at h
      split at h
      · -- scanner exhausted
        simp only [Res.ok.injEq, Prod.mk.injEq] at h
        obtain ⟨h1, h2, h3⟩ := h
        subst h1
        subst h2
        subst h3
        refine ⟨ht, Nat.le_refl _, ⟨[], by simp⟩, ⟨stuff, hmk, hstuff, ?_⟩, fun _ => rfl⟩
        intro hb
        cases mark with
        | false => exact hm2 rfl
        | true => exact absurd (hm3 rfl).1 hb
      · rename_i c rest heqc
        split at h
        · -- the closer is next
          simp only [Res.ok.injEq, Prod.mk.injEq] at h
          obtain ⟨h1, h2, h3⟩ := h
          subst h1
          subst h2
          subst h3
          refine ⟨ht, Nat.le_refl _, ⟨[], by simp⟩, ⟨stuff, hmk, hstuff, ?_⟩, fun _ => rfl⟩
          intro hb
          cases mark with
          | false => exact hm2 rfl
          | true => exact absurd (hm3 rfl).1 hb
        · split at h
          · -- the mark flag: re-push the content mark
            rename_i hmark
            obtain ⟨hbuf0, htoks0, hidx1, hbr⟩ := hm3 hmark
            have hstuffP : ∀ m ∈ sc.currentPos :: stuff,
                strayMarkIdx source m.index ∧ m.index ≤ (sc.pushMark).index := by
              intro m hm
              rcases List.mem_cons.mp hm with hm | hm
              · subst hm
                exact ⟨Or.inr (Or.inr (Or.inl ⟨hidx1, hbr⟩)), Nat.le_refl _⟩
              · exact hstuff m hm
            obtain ⟨g1, g2, g3, g4, g5⟩ := ih3 term sc.pushMark toks buf false take
              toks2 buf2 sc2 (sc.currentPos :: stuff) rest0
              (tracks_pushMark source sc ht)
              (by show sc.currentPos :: sc.markers = _; rw [hmk]; rfl)
              hstuffP (fun _ => by simp) (fun hx => absurd hx (by simp)) h
            refine ⟨g1, g2, g3, g4, ?_⟩
            intro h0
            obtain ⟨ext, hext⟩ := g3
            rw [hext] at h0
            exact absurd (List.append_eq_nil.mp h0).1 htoks0
          · rename_i hmarkne
            have hmf : mark = false := by
              revert hmarkne
              cases mark <;> simp
            subst hmf
            split at h
            · -- the take flag: consume the character into the buffer
              obtain ⟨g1, g2, g3, g4, g5⟩ := ih3 term (sc.advance c rest) toks (buf ++ [c])
                false false toks2 buf2 sc2 stuff rest0
                (tracks_advance source sc c rest ht heqc)
                (by show sc.markers = _; exact hmk)
                (strayList_mono source stuff sc.index ((sc.advance c rest).index)
                  (by show sc.index ≤ sc.index + 1; omega) hstuff)
                (fun _ => hm2 rfl) (fun hx => absurd hx (by simp)) h
              have hg2 : sc.index + 1 ≤ sc2.index := g2
              refine ⟨g1, by omega, g3, g4, ?_⟩
              intro h0
              exact g5 h0
            · split at h
              · -- a backslash
                split at h
                · -- escape of the closer: consume the backslash
                  obtain ⟨g1, g2, g3, g4, g5⟩ := ih3 term (sc.advance c rest) toks buf
                    false true toks2 buf2 sc2 stuff rest0
                    (tracks_advance source sc c rest ht heqc)
                    (by show sc.markers = _; exact hmk)
                    (strayList_mono source stuff sc.index ((sc.advance c rest).index)
                      (by show sc.index ≤ sc.index + 1; omega) hstuff)
                    (fun _ => hm2 rfl) (fun hx => absurd hx (by simp)) h
                  have hg2 : sc.index + 1 ≤ sc2.index := g2
                  refine ⟨g1, by omega, g3, g4, ?_⟩
                  intro h0
                  exact g5 h0
                · -- keep the backslash for the next iteration
                  exact ih3 term sc toks buf false true toks2 buf2 sc2 stuff rest0
                    ht hmk hstuff (fun _ => hm2 rfl) (fun hx => absurd hx (by simp)) h
              · split at h
                · -- a brace: the interpolation branch
                  rename_i hbrc
                  have hcBr : charAt source sc.index = some '{' := by
                    rw [← hbrc]
                    exact charAt_of_cons source sc c rest ht heqc
                  obtain ⟨m0, stuffT, hstuffE⟩ : ∃ m0 stuffT, stuff = m0 :: stuffT := by
                    rcases hs0 : stuff with _ | ⟨m0, stuffT⟩
                    · exact absurd hs0 (hm2 rfl)
                    · exact ⟨m0, stuffT, rfl⟩
                  subst hstuffE
                  have hmk2 : sc.markers = m0 :: (stuffT ++ rest0) := by
                    rw [hmk]
                    rfl
                  rw [popSpan_fst sc m0 (stuffT ++ rest0) hmk2,
                      popSpan_snd sc m0 (stuffT ++ rest0) hmk2] at h
                  split at h
                  · exact absurd h (by simp)
                  · case _ u isc1 hequ =>
                    have hid := (Scanner.consume_eq_advance
                      ({ sc with markers := stuffT ++ rest0 }).pushMark c rest
                      (by show sc.chars = c :: rest; exact heqc)).symm.trans hequ
                    simp only [Option.some.injEq, Prod.mk.injEq] at hid
                    obtain ⟨hu, hisc1⟩ := hid
                    subst hisc1
                    split at h
                    case _ tks ilx heqt =>
                      have htI : (({ sc with markers := stuffT ++ rest0 }).pushMark.advance
                          c rest).tracks source := by
                        refine tracks_advance source _ c rest ⟨?_, ?_⟩ ?_
                        · show sc.chars = source.drop sc.index
                          exact ht.1
                        · show sc.index ≤ source.length
                          exact ht.2
                        · show sc.chars = c :: rest
                          exact heqc
                      obtain ⟨T1, T2, T3, T4, T5, T6, T7⟩ := ih1 _ [] tks ilx rfl htI heqt
                      obtain ⟨leaks, hlkm, hlkf⟩ := T5
                      have hlkm2 : ilx.scanner.markers =
                          leaks ++ (({ sc with markers := stuffT ++ rest0 }).currentPos ::
                            (stuffT ++ rest0)) := by
                        rw [hlkm]
                        rfl
                      have hT2b : sc.index + 1 ≤ ilx.scanner.index := T2
                      split at h
                      · exact absurd h (by simp)
                      · case _ u2 isc2 hequ2 =>
                        cases hci : ilx.scanner.chars with
                        | nil => simp [Scanner.consume, hci] at hequ2
                        | cons e el =>
                          have hid2 := (Scanner.consume_eq_advance ilx.scanner e el hci).symm.trans hequ2
                          simp only [Option.some.injEq, Prod.mk.injEq] at hid2
                          obtain ⟨he2, hisc2⟩ := hid2
                          subst hisc2
                          split at h
                          · exact absurd h (by simp)
                          · rename_i hbne
                            have heb : e = '}' := he2.trans (not_not.mp hbne)
                            rw [heb] at hci h
                            have hcRb : charAt source ilx.scanner.index = some '}' :=
                              charAt_of_cons source ilx.scanner '}' el T1 hci
                            have ht5 := tracks_advance source ilx.scanner '}' el T1 hci
                            obtain ⟨m3, tl3, hf3, hs3, hcase3⟩ :=
                              popSpan_split2 (ilx.scanner.advance '}' el) leaks
                                (({ sc with markers := stuffT ++ rest0 }).currentPos)
                                (stuffT ++ rest0)
                                (by show ilx.scanner.markers = _; exact hlkm2)
                            rw [hf3, hs3] at h
                            rcases hcase3 with ⟨hm3C, htl3, hLnil⟩ | ⟨hm3mem, L2, htl3, hsubL⟩
                            · subst htl3
                              obtain ⟨G1, G2, G3, G4, G5⟩ := ih3 term _ _ [] true take
                                toks2 buf2 sc2 stuffT rest0
                                (by exact ⟨ht5.1, ht5.2⟩)
                                (by rfl)
                                (by intro m hm
                                    have h9 := hstuff m (List.mem_cons_of_mem m0 hm)
                                    refine ⟨h9.1, ?_⟩
                                    have h6 := h9.2
                                    have h7 := hT2b
                                    show m.index ≤ ilx.scanner.index + 1
                                    omega)
                                (fun hx => absurd hx (by simp))
                                (by intro _
                                    refine ⟨rfl, by simp, ?_, ?_⟩
                                    · show 1 ≤ ilx.scanner.index + 1
                                      omega
                                    · show charAt source (ilx.scanner.index + 1 - 1) = some '}'
                                      simpa using hcRb)
                                h
                              have hG2 : ilx.scanner.index + 1 ≤ sc2.index := G2
                              obtain ⟨ext, hext⟩ := G3
                              refine ⟨G1, ?_, app3_exists toks _ _ _ toks2 hext, G4, ?_⟩
                              · have h7 := hT2b
                                omega
                              · intro h0
                                rw [hext] at h0
                                simp at h0
                            · obtain ⟨G1, G2, G3, G4, G5⟩ := ih3 term _ _ [] true take
                                toks2 buf2 sc2
                                (L2 ++ (({ sc with markers := stuffT ++ rest0 }).currentPos ::
                                  stuffT)) rest0
                                (by exact ⟨ht5.1, ht5.2⟩)
                                (by show tl3 = _
                                    rw [htl3]
                                    simp)
                                (by intro m hm
                                    rcases List.mem_append.mp hm with hm | hm
                                    · have h8 := hlkf m (hsubL m hm)
                                      refine ⟨h8.1, ?_⟩
                                      have h6 := h8.2
                                      show m.index ≤ ilx.scanner.index + 1
                                      omega
                                    · rcases List.mem_cons.mp hm with hm | hm
                                      · subst hm
                                        refine ⟨Or.inr (Or.inr (Or.inr ?_)), ?_⟩
                                        · show charAt source sc.index = some '{'
                                          exact hcBr
                                        · show sc.index ≤ ilx.scanner.index + 1
                                          have h7 := hT2b
                                          omega
                                      · have h9 := hstuff m (List.mem_cons_of_mem m0 hm)
                                        refine ⟨h9.1, ?_⟩
                                        have h6 := h9.2
                                        have h7 := hT2b
                                        show m.index ≤ ilx.scanner.index + 1
                                        omega)
                                (fun hx => absurd hx (by simp))
                                (by intro _
                                    refine ⟨rfl, by simp, ?_, ?_⟩
                                    · show 1 ≤ ilx.scanner.index + 1
                                      omega
                                    · show charAt source (ilx.scanner.index + 1 - 1) = some '}'
                                      simpa using hcRb)
                                h
                              have hG2 : ilx.scanner.index + 1 ≤ sc2.index := G2
                              obtain ⟨ext, hext⟩ := G3
                              refine ⟨G1, ?_, app3_exists toks _ _ _ toks2 hext, G4, ?_⟩
                              · have h7 := hT2b
                                omega
                              · intro h0
                                rw [hext] at h0
                                simp at h0
                    case _ e heqt => exact absurd h (by simp)
                    case _ heqt => exact absurd h (by simp)
                    case _ heqt => exact absurd h (by simp)
                · -- a plain character
                  obtain ⟨g1, g2, g3, g4, g5⟩ := ih3 term (sc.advance c rest) toks (buf ++ [c])
                    false take toks2 buf2 sc2 stuff rest0
                    (tracks_advance source sc c rest ht heqc)
                    (by show sc.markers = _; exact hmk)
                    (strayList_mono source stuff sc.index ((sc.advance c rest).index)
                      (by show sc.index ≤ sc.index + 1; omega) hstuff)
                    (fun _ => hm2 rfl) (fun hx => absurd hx (by simp)) h
                  have hg2 : sc.index + 1 ≤ sc2.index := g2
                  refine ⟨g1, by omega, g3, g4, ?_⟩
                  intro h0
                  exact g5 h0

theorem goodBList_append (l1 l2 : List ShellSegment) :
    goodBList (l1 ++ l2) = (goodBList l1 && goodBList l2) := by
  induction l1 with
  | nil => simp [goodBList]
  | cons s rest ih => simp [goodBList, ih, Bool.and_assoc]

/-- The parser invariant behind C10: every segment tree any parser
function returns satisfies `goodB` — in particular every `Command`'s
head is a `Text` or a `StringInterp`. -/
theorem parseGood (fuel : Nat) :
    (∀ tks seg, parseAll fuel tks = .ok seg → seg.goodB = true) ∧
    (∀ p prec seg p', parse fuel p prec = .ok (seg, p') → seg.goodB = true) ∧
    (∀ p left prec seg p', parseLoop fuel p left prec = .ok (seg, p') →
      left.goodB = true → seg.goodB = true) ∧
    (∀ p s seg p', parseString fuel p s = .ok (seg, p') → seg.goodB = true) ∧
    (∀ p tks seg p', parseInterp fuel p tks = .ok (seg, p') → seg.goodB = true) ∧
    (∀ tks segs, interpChildren fuel tks = .ok segs → goodBList segs = true) ∧
    (∀ p seg0 seg p', parseArgs fuel p seg0 = .ok (seg, p') →
      isTextual seg0 = true → seg0.goodB = true → seg.goodB = true) ∧
    (∀ p acc segs p', argsLoop fuel p acc = .ok (segs, p') →
      goodBList acc = true → goodBList segs = true) ∧
    (∀ p left tk seg p', parseRedirect fuel p left tk = .ok (seg, p') →
      left.goodB = true → seg.goodB = true) := by
  induction fuel with
  | zero =>
    refine ⟨?_, ?_, ?_, ?_, ?_, ?_, ?_, ?_, ?_⟩
    · intro tks seg h
      exact absurd h (by simp [parseAll])
    · intro p prec seg p' h
      exact absurd h (by simp [parse])
    · intro p left prec seg p' h _
      exact absurd h (by simp [parseLoop])
    · intro p s seg p' h
      exact absurd h (by simp [parseString])
    · intro p tks seg p' h
      exact absurd h (by simp [parseInterp])
    · intro tks segs h
      exact absurd h (by simp [interpChildren])
    · intro p seg0 seg p' h _ _
      exact absurd h (by simp [parseArgs])
    · intro p acc segs p' h _
      exact absurd h (by simp [argsLoop])
    · intro p left tk seg p' h _
      exact absurd h (by simp [parseRedirect])
  | succ fuel ih =>
    obtain ⟨ihA, ihP, ihL, ihS, ihI, ihC, ihG, ihR, ihD⟩ := ih
    refine ⟨?_, ?_, ?_, ?_, ?_, ?_, ?_, ?_, ?_⟩
    · -- parseAll
      intro tks seg h
      simp only [parseAll] at h
      split at h
      · simp only [Res.ok.injEq] at h
        subst h
        rfl
      · split at h
        case _ tree p1 heq =>
          split at h
          · simp only [Res.ok.injEq] at h
            subst h
            exact ihP _ _ _ _ heq
          · exact absurd h (by simp)
          · exact absurd h (by simp)
          · exact absurd h (by simp)
        case _ e heq => exact absurd h (by simp)
        case _ heq => exact absurd h (by simp)
        case _ heq => exact absurd h (by simp)
    · -- parse
      intro p prec seg p' h
      simp only [parse] at h
      split at h
      case _ tk p1 heqc =>
        split at h
        · -- String
          split at h
          case _ left p2 heq =>
            exact ihL _ _ _ _ _ h (ihS _ _ _ _ heq)
          case _ e heq => exact absurd h (by simp)
          case _ heq => exact absurd h (by simp)
          case _ heq => exact absurd h (by simp)
        · -- Interp
          split at h
          case _ left p2 heq =>
            exact ihL _ _ _ _ _ h (ihI _ _ _ _ heq)
          case _ e heq => exact absurd h (by simp)
          case _ heq => exact absurd h (by simp)
          case _ heq => exact absurd h (by simp)
        · -- Dollar
          split at h
          · -- $( ... )
            split at h
            case _ _ p2 heq1 =>
              split at h
              case _ seg2 p3 heq2 =>
                split at h
                case _ _ p4 heq3 =>
                  refine ihL _ _ _ _ _ h ?_
                  simp only [ShellSegment.goodB]
                  exact ihP _ _ _ _ heq2
                case _ e heq3 => exact absurd h (by simp)
                case _ heq3 => exact absurd h (by simp)
                case _ heq3 => exact absurd h (by simp)
              case _ e heq2 => exact absurd h (by simp)
              case _ heq2 => exact absurd h (by simp)
              case _ heq2 => exact absurd h (by simp)
            case _ e heq1 => exact absurd h (by simp)
            case _ heq1 => exact absurd h (by simp)
            case _ heq1 => exact absurd h (by simp)
          · -- $NAME
            split at h
            case _ tk2 p2 heq1 =>
              split at h
              · exact ihL _ _ _ _ _ h rfl
              · exact absurd h (by simp)
            case _ e heq1 => exact absurd h (by simp)
            case _ heq1 => exact absurd h (by simp)
            case _ heq1 => exact absurd h (by simp)
        · -- anything else: ExpectSegment
          exact absurd h (by simp)
      case _ e heqc => exact absurd h (by simp)
      case _ heqc => exact absurd h (by simp)
      case _ heqc => exact absurd h (by simp)
    · -- parseLoop
      intro p left prec seg p' h hleft
      simp only [parseLoop] at h
      split at h
      · split at h
        case _ tk p1 heqc =>
          split at h
          · -- Amp
            split at h
            case _ right p2 heq =>
              refine ihL _ _ _ _ _ h ?_
              simp [ShellSegment.goodB, hleft, ihP _ _ _ _ heq]
            case _ e heq => exact absurd h (by simp)
            case _ heq => exact absurd h (by simp)
            case _ heq => exact absurd h (by simp)
          · -- Semi
            split at h
            case _ right p2 heq =>
              refine ihL _ _ _ _ _ h ?_
              simp [ShellSegment.goodB, hleft, ihP _ _ _ _ heq]
            case _ e heq => exact absurd h (by simp)
            case _ heq => exact absurd h (by simp)
            case _ heq => exact absurd h (by simp)
          · -- Pipe
            split at h
            case _ right p2 heq =>
              refine ihL _ _ _ _ _ h ?_
              simp [ShellSegment.goodB, hleft, ihP _ _ _ _ heq]
            case _ e heq => exact absurd h (by simp)
            case _ heq => exact absurd h (by simp)
            case _ heq => exact absurd h (by simp)
          · -- StdIn
            split at h
            case _ l2 p2 heq =>
              exact ihL _ _ _ _ _ h (ihD _ _ _ _ _ heq hleft)
            case _ e heq => exact absurd h (by simp)
            case _ heq => exact absurd h (by simp)
            case _ heq => exact absurd h (by simp)
          · -- StdOut
            split at h
            case _ l2 p2 heq =>
              exact ihL _ _ _ _ _ h (ihD _ _ _ _ _ heq hleft)
            case _ e heq => exact absurd h (by simp)
            case _ heq => exact absurd h (by simp)
            case _ heq => exact absurd h (by simp)
          · -- StdErr
            split at h
            case _ l2 p2 heq =>
              exact ihL _ _ _ _ _ h (ihD _ _ _ _ _ heq hleft)
            case _ e heq => exact absurd h (by simp)
            case _ heq => exact absurd h (by simp)
            case _ heq => exact absurd h (by simp)
          · -- StdBoth
            split at h
            case _ l2 p2 heq =>
              exact ihL _ _ _ _ _ h (ihD _ _ _ _ _ heq hleft)
            case _ e heq => exact absurd h (by simp)
            case _ heq => exact absurd h (by simp)
            case _ heq => exact absurd h (by simp)
          · -- unreachable kinds
            exact absurd h (by simp)
        case _ e heqc => exact absurd h (by simp)
        case _ heqc => exact absurd h (by simp)
        case _ heqc => exact absurd h (by simp)
      · simp only [Res.ok.injEq, Prod.mk.injEq] at h
        obtain ⟨h1, -⟩ := h
        subst h1
        exact hleft
    · -- parseString
      intro p s seg p' h
      simp only [parseString] at h
      split at h
      · simp only [Res.ok.injEq, Prod.mk.injEq] at h
        obtain ⟨h1, -⟩ := h
        subst h1
        rfl
      · exact ihG _ _ _ _ h rfl rfl
    · -- parseInterp
      intro p tks seg p' h
      simp only [parseInterp] at h
      split at h
      case _ segs heq =>
        split at h
        · simp only [Res.ok.injEq, Prod.mk.injEq] at h
          obtain ⟨h1, -⟩ := h
          subst h1
          simpa [ShellSegment.goodB] using ihC _ _ heq
        · refine ihG _ _ _ _ h rfl ?_
          simpa [ShellSegment.goodB] using ihC _ _ heq
      case _ e heq => exact absurd h (by simp)
      case _ heq => exact absurd h (by simp)
      case _ heq => exact absurd h (by simp)
    · -- interpChildren
      intro tks segs h
      match tks, h with
      | [], h =>
        simp only [interpChildren, Res.ok.injEq] at h
        subst h
        rfl
      | tk :: rest, h =>
        simp only [interpChildren] at h
        split at h
        · split at h
          case _ segs0 heq =>
            simp only [Res.ok.injEq] at h
            subst h
            simp [goodBList, ShellSegment.goodB, ihC _ _ heq]
          case _ e heq => exact absurd h (by simp)
          case _ heq => exact absurd h (by simp)
          case _ heq => exact absurd h (by simp)
        · split at h
          case _ seg1 heq1 =>
            split at h
            case _ segs0 heq2 =>
              simp only [Res.ok.injEq] at h
              subst h
              simp [goodBList, ihA _ _ heq1, ihC _ _ heq2]
            case _ e heq2 => exact absurd h (by simp)
            case _ heq2 => exact absurd h (by simp)
            case _ heq2 => exact absurd h (by simp)
          case _ e heq1 => exact absurd h (by simp)
          case _ heq1 => exact absurd h (by simp)
          case _ heq1 => exact absurd h (by simp)
        · exact absurd h (by simp)
    · -- parseArgs
      intro p seg0 seg p' h htex hgood
      simp only [parseArgs] at h
      split at h
      case _ segs p1 heq =>
        have hsegs := ihR _ _ _ _ heq rfl
        split at h <;>
          · simp only [Res.ok.injEq, Prod.mk.injEq] at h
            obtain ⟨h1, -⟩ := h
            subst h1
            simp [ShellSegment.goodB, htex, hgood, hsegs]
      case _ e heq => exact absurd h (by simp)
      case _ heq => exact absurd h (by simp)
      case _ heq => exact absurd h (by simp)
    · -- argsLoop
      intro p acc segs p' h hacc
      simp only [argsLoop] at h
      split at h
      · split at h
        case _ seg1 p1 heq =>
          refine ihR _ _ _ _ h ?_
          simp [goodBList_append, goodBList, hacc, ihP _ _ _ _ heq]
        case _ e heq => exact absurd h (by simp)
        case _ heq => exact absurd h (by simp)
        case _ heq => exact absurd h (by simp)
      · simp only [Res.ok.injEq, Prod.mk.injEq] at h
        obtain ⟨h1, -⟩ := h
        subst h1
        exact hacc
    · -- parseRedirect
      intro p left tk seg p' h hleft
      simp only [parseRedirect] at h
      split at h
      case _ right p1 heq =>
        split at h
        · exact absurd h (by simp)
        · split at h
          case _ mode heqm =>
            simp only [Res.ok.injEq, Prod.mk.injEq] at h
            obtain ⟨h1, -⟩ := h
            subst h1
            simp [ShellSegment.goodB, hleft, ihP _ _ _ _ heq]
          case _ heqm => exact absurd h (by simp)
      case _ e heq => exact absurd h (by simp)
      case _ heq => exact absurd h (by simp)
      case _ heq => exact absurd h (by simp)

theorem shortCircuits_iff (r : ShellResult) : shortCircuits r = true ↔ r.code ≠ some 0 := by
  unfold shortCircuits
  cases h : r.code with
  | none => simp [h]
  | some c => simp [h]

theorem shortCircuits_false_iff (r : ShellResult) :
    shortCircuits r = false ↔ r.code = some 0 := by
  rw [← Bool.not_eq_true, shortCircuits_iff]
  simp

/-- `TextInterp`'s loop only early-returns results that fail the
`ensure_result!` check. -/
theorem interpParts_inl (fuel : Nat) :
    ∀ ps acc w r w', interpParts fuel ps acc w = .ok (.inl (r, w')) →
      shortCircuits r = true := by
  induction fuel with
  | zero =>
    intro ps acc w r w' h
    exact absurd h (by simp [interpParts])
  | succ fuel ih =>
    intro ps acc w r w' h
    match ps with
    | [] => simp [interpParts] at h
    | s :: rest =>
      simp only [interpParts] at h
      split at h
      case _ r0 w1 heq =>
        split at h
        case isTrue hsr =>
          simp only [Res.ok.injEq, Sum.inl.injEq, Prod.mk.injEq] at h
          obtain ⟨h1, -⟩ := h
          subst h1
          exact hsr
        case isFalse hsr => exact ih _ _ _ _ _ h
      case _ e heq => exact absurd h (by simp)
      case _ heq => exact absurd h (by simp)
      case _ heq => exact absurd h (by simp)

/-- A `Text` or `StringInterp` head that evaluates (captured, no input)
to a result with code `Some 0` always carries `Some` stdout — the fact
that makes the `unwrap` in `Cmd::execute` safe. -/
theorem textualStdout (fuel : Nat) (seg : ShellSegment) (w w' : World) (r : ShellResult)
    (htex : isTextual seg = true)
    (h : execute fuel seg true none w = .ok (r, w'))
    (hc : r.code = some 0) : r.stdout ≠ none := by
  match fuel with
  | 0 => exact absurd h (by simp [execute])
  | fuel + 1 =>
    cases seg <;> simp [isTextual] at htex
    case Text s =>
      simp only [execute, Res.ok.injEq, Prod.mk.injEq] at h
      obtain ⟨h1, -⟩ := h
      subst h1
      simp [ShellResult.okWithText]
    case StringInterp ps =>
      simp only [execute] at h
      split at h
      case _ r0 w1 heq =>
        simp only [Res.ok.injEq, Prod.mk.injEq] at h
        obtain ⟨h1, -⟩ := h
        subst h1
        exact absurd hc ((shortCircuits_iff r0).mp (interpParts_inl fuel _ _ _ _ _ heq))
      case _ lines w1 heq =>
        simp only [Res.ok.injEq, Prod.mk.injEq] at h
        obtain ⟨h1, -⟩ := h
        subst h1
        simp [ShellResult.okWithText]
      case _ e heq => exact absurd h (by simp)
      case _ heq => exact absurd h (by simp)
      case _ heq => exact absurd h (by simp)

theorem goodB_Command_iff (c : ShellSegment) (args : Option (List ShellSegment)) :
    (ShellSegment.Command c args).goodB = true ↔
      isTextual c = true ∧ c.goodB = true ∧ goodBList (args.getD []) = true := by
  cases args <;>
    simp [ShellSegment.goodB, goodBList, Bool.and_eq_true, and_assoc, Option.getD]

/-- The no-panic half of C10: on a `goodB` tree, evaluation never hits
the `res.stdout.unwrap()` panic in `Cmd::execute`. -/
theorem execNoPanic (fuel : Nat) :
    (∀ seg cap inp w, seg.goodB = true → execute fuel seg cap inp w ≠ .panicked) ∧
    (∀ ps acc w, goodBList ps = true → interpParts fuel ps acc w ≠ .panicked) ∧
    (∀ l acc w, goodBList l = true → argsExec fuel l acc w ≠ .panicked) := by
  induction fuel with
  | zero =>
    refine ⟨?_, ?_, ?_⟩
    · intro seg cap inp w _ h
      simp [execute] at h
    · intro ps acc w _ h
      simp [interpParts] at h
    · intro l acc w _ h
      simp [argsExec] at h
  | succ fuel ih =>
    obtain ⟨ih1, ih2, ih3⟩ := ih
    refine ⟨?_, ?_, ?_⟩
    · intro seg cap inp w hgood h
      cases seg
      case Empty => simp [execute] at h
      case Text s => simp [execute] at h
      case Var name =>
        simp only [execute] at h
        split at h
        · simp at h
        · split at h
          · simp at h
          · simp at h
      case CmdInterp inner =>
        simp only [ShellSegment.goodB] at hgood
        exact ih1 _ _ _ _ hgood h
      case StringInterp ps =>
        simp only [ShellSegment.goodB] at hgood
        simp only [execute] at h
        split at h
        · simp at h
        · simp at h
        · simp at h
        · simp at h
        case _ heq => exact ih2 _ _ _ hgood heq
      case Pipe l r =>
        simp only [ShellSegment.goodB, Bool.and_eq_true] at hgood
        simp only [execute] at h
        split at h
        case _ lres w1 heq =>
          split at h
          · simp at h
          · exact ih1 _ _ _ _ hgood.2 h
        case _ e heq => simp at h
        case _ heq => simp at h
        case _ heq => exact ih1 _ _ _ _ hgood.1 heq
      case Seq safe l r =>
        simp only [ShellSegment.goodB, Bool.and_eq_true] at hgood
        simp only [execute] at h
        split at h
        · split at h
          case _ lres w1 heq =>
            split at h
            · simp at h
            · exact ih1 _ _ _ _ hgood.2 h
          case _ e heq => simp at h
          case _ heq => simp at h
          case _ heq => exact ih1 _ _ _ _ hgood.1 heq
        · split at h
          case _ x w1 heq => exact ih1 _ _ _ _ hgood.2 h
          case _ e heq => simp at h
          case _ heq => simp at h
          case _ heq => exact ih1 _ _ _ _ hgood.1 heq
      case Redirect l r mode =>
        simp only [ShellSegment.goodB, Bool.and_eq_true] at hgood
        simp only [execute] at h
        split at h
        case _ rres w1 heq =>
          split at h
          · simp at h
          · split at h
            · simp at h
            · split at h
              case _ lres w2 heql =>
                split at h
                · simp at h
                · split at h
                  · simp at h
                  · simp at h
              case _ e heql => simp at h
              case _ heql => simp at h
              case _ heql => exact ih1 _ _ _ _ hgood.1 heql
        case _ e heq => simp at h
        case _ heq => simp at h
        case _ heq => exact ih1 _ _ _ _ hgood.2 heq
      case Command c args =>
        rw [goodB_Command_iff] at hgood
        obtain ⟨htex, hcgood, hargs⟩ := hgood
        simp only [execute] at h
        split at h
        case _ res w1 heq =>
          split at h
          · simp at h
          case isFalse hsc =>
            split at h
            case _ heqs =>
              -- res.stdout = none: impossible for a textual head with code 0
              have hcode : res.code = some 0 :=
                (shortCircuits_false_iff res).mp (Bool.not_eq_true _ ▸ by
                  revert hsc
                  cases shortCircuits res <;> simp)
              exact absurd heqs (textualStdout fuel c _ _ _ htex heq hcode)
            case _ lines heqs =>
              split at h
              case _ argv w2 heqa =>
                split at h
                · simp at h
                · split at h
                  · split at h
                    · simp at h
                    · simp at h
                  · split at h
                    · simp at h
                    · simp at h
                    · simp at h
              case _ e heqa => simp at h
              case _ heqa => simp at h
              case _ heqa => exact ih3 _ _ _ hargs heqa
        case _ e heq => simp at h
        case _ heq => simp at h
        case _ heq => exact ih1 _ _ _ _ hcgood heq
    · intro ps acc w hps h
      match ps with
      | [] => simp [interpParts] at h
      | s :: rest =>
        simp only [goodBList, Bool.and_eq_true] at hps
        simp only [interpParts] at h
        split at h
        case _ r0 w1 heq =>
          split at h
          · simp at h
          · exact ih2 _ _ _ hps.2 h
        case _ e heq => simp at h
        case _ heq => simp at h
        case _ heq => exact ih1 _ _ _ _ hps.1 heq
    · intro l acc w hl h
      match l with
      | [] => simp [argsExec] at h
      | s :: rest =>
        simp only [goodBList, Bool.and_eq_true] at hl
        simp only [argsExec] at h
        split at h
        case _ r0 w1 heq => exact ih3 _ _ _ hl.2 h
        case _ e heq => simp at h
        case _ heq => simp at h
        case _ heq => exact ih1 _ _ _ _ hl.1 heq

/-! ## C3: `Seq{safe=true}` and the caller's capture flag -/

/-- C3 counterexample: under `c3World`, evaluating
`Seq{safe=true, left=c3Left, right=Text "right"}` with the caller's
`capture = true` runs the left side with `capture = false` (so it exits
1 and short-circuits), while the spec's rule — left evaluated with the
caller's capture flag — would run the right side and succeed.  The two
disagree, refuting the claim that left receives the caller's flag. -/
theorem claim_c3_counterexample :
    execute 9 (ShellSegment.Seq true c3Left (.Text "right")) true none c3World =
      .ok ({ code := some 1, stdout := none, stderr := none }, c3World) ∧
    seqSafeExecuteSpec 8 c3Left (.Text "right") true none c3World =
      .ok ({ code := some 0, stdout := some ["right"], stderr := none }, c3World) ∧
    execute 9 (ShellSegment.Seq true c3Left (.Text "right")) true none c3World ≠
      seqSafeExecuteSpec 8 c3Left (.Text "right") true none c3World := by
  refine ⟨rfl, rfl, ?_⟩
  intro h
  rw [show execute 9 (ShellSegment.Seq true c3Left (.Text "right")) true none c3World =
        .ok ({ code := some 1, stdout := none, stderr := none }, c3World) from rfl,
      show seqSafeExecuteSpec 8 c3Left (.Text "right") true none c3World =
        .ok ({ code := some 0, stdout := some ["right"], stderr := none }, c3World) from rfl] at h
  simp [Prod.mk.injEq, ShellResult.mk.injEq] at h

/-- C3 (amended): in `Seq{safe=true, left, right}` the left segment is
evaluated with `capture = false` and `input = None` regardless of the
caller's flags; if left's code is `Some(0)` the right segment's result
(evaluated with the caller's capture and input) is returned, otherwise
left's result is returned unchanged. -/
theorem claim_c3_amended (l r : ShellSegment) (capture : Bool)
    (input : Option (List String)) (w w1 : World) (fuel : Nat) (lres : ShellResult)
    (h : execute fuel l false none w = .ok (lres, w1)) :
    (lres.code = some 0 →
      execute (fuel + 1) (.Seq true l r) capture input w = execute fuel r capture input w1) ∧
    (lres.code ≠ some 0 →
      execute (fuel + 1) (.Seq true l r) capture input w = .ok (lres, w1)) := by
  constructor
  · intro hc
    have hs : shortCircuits lres = false := (shortCircuits_false_iff lres).mpr hc
    simp [execute, h, hs]
  · intro hc
    have hs : shortCircuits lres = true := (shortCircuits_iff lres).mpr hc
    simp [execute, h, hs]

/-- Witness for C3's amended theorem at `left = Text "a"`. -/
theorem claim_c3_witness :
    execute 2 (ShellSegment.Seq true (.Text "a") (.Text "b")) true none wTriv =
      execute 1 (.Text "b") true none wTriv :=
  (claim_c3_amended (.Text "a") (.Text "b") true none wTriv wTriv 1
    (ShellResult.okWithText "a") rfl).1 rfl

/-! ## C7: short-circuit in `Seq{safe=true}` and `Pipe` -/

/-- C7: if the left side of a safe `Seq` (respectively a `Pipe`) yields
`code = None` or a non-zero code (`code ≠ Some 0`), the combined segment
returns left's result verbatim, for every right segment — so
`right.execute` is never invoked (the result does not depend on `right`
at all). -/
theorem claim_c7_short_circuit (l : ShellSegment) (capture : Bool)
    (input : Option (List String)) (w w1 : World) (fuel : Nat) (lres : ShellResult)
    (hc : lres.code ≠ some 0) :
    (execute fuel l false none w = .ok (lres, w1) →
      ∀ r, execute (fuel + 1) (.Seq true l r) capture input w = .ok (lres, w1)) ∧
    (execute fuel l true input w = .ok (lres, w1) →
      ∀ r, execute (fuel + 1) (.Pipe l r) capture input w = .ok (lres, w1)) := by
  have hs : shortCircuits lres = true := (shortCircuits_iff lres).mpr hc
  constructor
  · intro h r
    simp [execute, h, hs]
  · intro h r
    simp [execute, h, hs]

/-- Witness for C7 under `wFail` (every child exits 1): the left
command's result `{code=Some 1}` is returned for both combinators. -/
theorem claim_c7_witness :
    execute 4 (ShellSegment.Seq true (.Command (.Text "f") none) (.Text "b")) true none wFail =
      .ok ({ code := some 1, stdout := none, stderr := none }, wFail) ∧
    execute 4 (ShellSegment.Pipe (.Command (.Text "f") none) (.Text "b")) true none wFail =
      .ok ({ code := some 1, stdout := none, stderr := none }, wFail) := by
  constructor
  · exact (claim_c7_short_circuit (.Command (.Text "f") none) true none wFail wFail 3
      { code := some 1, stdout := none, stderr := none } (by simp)).1 rfl (.Text "b")
  · exact (claim_c7_short_circuit (.Command (.Text "f") none) true none wFail wFail 3
      { code := some 1, stdout := none, stderr := none } (by simp)).2 rfl (.Text "b")

/-! ## C8: `Seq{safe=false}` runs right unconditionally -/

/-- C8: in `Seq{safe=false, left, right}`, whenever left's evaluation
yields a result — any exit code, `None` included, any captured streams —
that result is discarded and the combined segment evaluates to exactly
`right`'s evaluation (with the caller's capture and input). -/
theorem claim_c8_unsafe_seq (l r : ShellSegment) (capture : Bool)
    (input : Option (List String)) (w w1 : World) (fuel : Nat) (lres : ShellResult)
    (h : execute fuel l false none w = .ok (lres, w1)) :
    execute (fuel + 1) (.Seq false l r) capture input w = execute fuel r capture input w1 := by
  simp [execute, h]

/-- Witness for C8 with a left side that exits 1: right still runs. -/
theorem claim_c8_witness :
    execute 4 (ShellSegment.Seq false (.Command (.Text "f") none) (.Text "b")) true none wFail =
      execute 3 (.Text "b") true none wFail :=
  claim_c8_unsafe_seq (.Command (.Text "f") none) (.Text "b") true none wFail wFail 3
    { code := some 1, stdout := none, stderr := none } rfl

/-! ## C9: the result of a successful `Redirect` -/

/-- C9 counterexample: a `Redirect` whose left side exits 1 completes
without an error (an `ok` result) yet returns left's result verbatim —
non-zero code and captured stdout included — rather than
`{code=Some 0, stdout=None, stderr=None}`; the captured stream `boom`
is propagated to the caller, and nothing is written to the file. -/
theorem claim_c9_counterexample :
    execute 9 (ShellSegment.Redirect (.Command (.Text "c") none) (.Text "p") .stdOut)
        true none c9World =
      .ok ({ code := some 1, stdout := some ["boom"], stderr := none }, c9World) ∧
    ({ code := some 1, stdout := some ["boom"], stderr := none } : ShellResult) ≠
      ShellResult.okResult := by
  exact ⟨rfl, by decide⟩

/-- C9 (amended): whenever a `Redirect` evaluation completes without an
error and its returned code is `Some(0)`, the result is exactly
`{code=Some 0, stdout=None, stderr=None}`, for every mode (`StdIn`
included) and regardless of the caller's capture flag; left's captured
streams reach the caller only through the `ensure_result!` early returns,
which carry a code that is `None` or non-zero. -/
theorem claim_c9_redirect (l r : ShellSegment) (mode : RedirectMode) (capture : Bool)
    (input : Option (List String)) (w w' : World) (fuel : Nat) (res : ShellResult)
    (h : execute (fuel + 1) (.Redirect l r mode) capture input w = .ok (res, w'))
    (hc : res.code = some 0) :
    res = ShellResult.okResult := by
  simp only [execute] at h
  split at h
  case _ rres w1 heqr =>
    split at h
    case isTrue hsr =>
      simp only [Res.ok.injEq, Prod.mk.injEq] at h
      rw [← h.1] at hc
      exact absurd hc ((shortCircuits_iff rres).mp hsr)
    case isFalse hsr =>
      split at h
      case _ e heqi => exact absurd h (by simp)
      case _ input2 heqi =>
        split at h
        case _ lres w2 heql =>
          split at h
          case isTrue hsl =>
            simp only [Res.ok.injEq, Prod.mk.injEq] at h
            rw [← h.1] at hc
            exact absurd hc ((shortCircuits_iff lres).mp hsl)
          case isFalse hsl =>
            split at h <;>
              · simp only [Res.ok.injEq, Prod.mk.injEq] at h
                exact h.1.symm
        case _ e heql => exact absurd h (by simp)
        case _ heql => exact absurd h (by simp)
        case _ heql => exact absurd h (by simp)
  case _ e heqr => exact absurd h (by simp)
  case _ heqr => exact absurd h (by simp)
  case _ heqr => exact absurd h (by simp)

/-- Witness for C9's amended theorem: a successful `StdOut` redirect
under `wTriv` returns the bare success result. -/
theorem claim_c9_witness :
    ({ code := some 0, stdout := none, stderr := none } : ShellResult) =
      ShellResult.okResult :=
  claim_c9_redirect (.Command (.Text "c") none) (.Text "p") .stdOut true none wTriv
    { wTriv with fs := [("p", "")] } 8
    { code := some 0, stdout := none, stderr := none } rfl rfl

/-! ## C1: empty input through the pipeline -/

/-- C1 counterexample: lexing `""` yields the one-token vector
`[EndOfInput]`, and `parse_all` on that vector does **not** return
`Empty` — `parse_all` only checks `tokens.is_empty()`, so it consumes
the `EndOfInput` token as a would-be leading operand and fails with
`ExpectSegment`.  The claimed success of the empty-input pipeline
therefore fails at its parse step. -/
theorem claim_c1_counterexample :
    lexChars 9 [] = .ok [⟨.endOfInput, sp00⟩] ∧
    parseAll 9 [⟨.endOfInput, sp00⟩] = .err (.expectSegment "<end-of-input>" sp00) :=
  ⟨rfl, rfl⟩

/-- C1 (amended): `parse_all` returns `Empty` only for an empty token
vector, and executing `Empty` yields `{code=Some 0, stdout=None,
stderr=None}`; but lexing `""` produces `[EndOfInput]`, on which
`parse_all` returns an `ExpectSegment` error instead of `Empty`, so the
empty-input pipeline ends in a parse error rather than success. -/
theorem claim_c1_amended (capture : Bool) (input : Option (List String))
    (w : World) (fuel : Nat) :
    parseAll (fuel + 1) [] = .ok .Empty ∧
    execute (fuel + 1) .Empty capture input w = .ok (ShellResult.okResult, w) ∧
    parseAll (fuel + 2) [⟨.endOfInput, sp00⟩] =
      .err (.expectSegment "<end-of-input>" sp00) :=
  ⟨rfl, rfl, rfl⟩

/-! ## C2: greedy longest-first punctuation lexing -/

/-- C2: with the `>`-family ordered longest first (the order the source
*inserts* the entries and the comment demands), `>>>` lexes to a single
`StdBoth`; with the same entries iterated in the reverse order — a
permutation, as legitimate for a `HashMap` iteration as any other —
the same input lexes to three `StdOut` tokens.  The token stream
therefore depends on the `HashMap`'s arbitrary iteration order, and the
claimed "always exactly one StdBoth" does not hold of the code; the
in-source comment "these must be kept sorted by length in descending
order" documents the intent that the `HashMap` cannot honour. -/
theorem claim_c2_code_bug :
    lexCharsWith 9 punctTable ['>', '>', '>'] =
      .ok [⟨.stdBoth, ⟨⟨0, 1, 1⟩, ⟨3, 1, 4⟩⟩⟩, ⟨.endOfInput, ⟨⟨3, 1, 4⟩, ⟨3, 1, 4⟩⟩⟩] ∧
    lexCharsWith 9 punctTable.reverse ['>', '>', '>'] =
      .ok [⟨.stdOut, ⟨⟨0, 1, 1⟩, ⟨1, 1, 2⟩⟩⟩, ⟨.stdOut, ⟨⟨1, 1, 2⟩, ⟨2, 1, 3⟩⟩⟩,
           ⟨.stdOut, ⟨⟨2, 1, 3⟩, ⟨3, 1, 4⟩⟩⟩, ⟨.endOfInput, ⟨⟨3, 1, 4⟩, ⟨3, 1, 4⟩⟩⟩] ∧
    punctTable.reverse.Perm punctTable :=
  ⟨rfl, rfl, List.reverse_perm punctTable⟩

/-! ## C4: backslash inside a quoted string -/

/-- C4 counterexample: lexing `"\{x}"` shows that the character after a
backslash is **not** consumed verbatim — the `{` that follows the
backslash still opens an interpolation (the output token is an `Interp`
whose children are the literal backslash string and a nested `Interp`),
while the claim says it cannot act as a metacharacter. -/
theorem claim_c4_counterexample :
    lexChars 99 ['"', '\\', '{', 'x', '}', '"'] =
      .ok [⟨.interp [⟨.str "\\", ⟨⟨1, 1, 2⟩, ⟨2, 1, 3⟩⟩⟩,
                     ⟨.interp [⟨.str "x", ⟨⟨3, 1, 4⟩, ⟨4, 1, 5⟩⟩⟩,
                               ⟨.endOfInput, ⟨⟨4, 1, 5⟩, ⟨4, 1, 5⟩⟩⟩],
                      ⟨⟨2, 1, 3⟩, ⟨5, 1, 6⟩⟩⟩],
            ⟨⟨0, 1, 1⟩, ⟨6, 1, 7⟩⟩⟩,
           ⟨.endOfInput, ⟨⟨6, 1, 7⟩, ⟨6, 1, 7⟩⟩⟩] := rfl

/-- C4 (amended): inside a quoted string, a backslash not followed by
the opener is kept as a literal backslash, and the character after it is
left to be processed **normally** in the next iteration — the two loop
steps consume exactly the backslash into the buffer and nothing else, so
a following `{` still opens an interpolation. -/
theorem claim_c4_amended (term c2 : Char) (rest : List Char)
    (punct : List (List Char × ShellTokenKind)) (sc : Scanner)
    (toks : List ShellToken) (buf : List Char) (fuel : Nat)
    (hch : sc.chars = '\\' :: c2 :: rest) (hterm : term ≠ '\\') (hc2 : c2 ≠ term) :
    quotedLoop (fuel + 2) term punct sc toks buf false false =
      quotedLoop fuel term punct (sc.advance '\\' (c2 :: rest)) toks (buf ++ ['\\']) false false := by
  obtain ⟨chars, markers, index, line, column⟩ := sc
  simp only at hch
  subst hch
  simp [quotedLoop, Scanner.peekAhead, Scanner.advance, Ne.symm hterm, hc2]

/-- Witness for C4's amended theorem at the state just inside `"` with
remaining input `\x"`. -/
theorem claim_c4_witness :
    quotedLoop 4 '"' punctTable c4sc [] [] false false =
      quotedLoop 2 '"' punctTable (c4sc.advance '\\' ['x', '"']) [] ['\\'] false false :=
  claim_c4_amended '"' 'x' ['"'] punctTable c4sc [] [] 2 rfl (by decide) (by decide)

/-! ## C5: token spans -/

/-- C5 counterexample: lexing the simple quoted literal `"ab"` produces
a `String` token whose span is `[1..4)` — `source[1..4] = ab"` — rather
than a span covering the whole quoted literal including its opening
quote (`source[0..4] = "ab"`): the span's start index is 1, not 0, so
the claimed round-trip fails for quoted-string tokens. -/
theorem claim_c5_counterexample :
    lexChars 9 ['"', 'a', 'b', '"'] =
      .ok [⟨.str "ab", ⟨⟨1, 1, 2⟩, ⟨4, 1, 5⟩⟩⟩, ⟨.endOfInput, ⟨⟨4, 1, 5⟩, ⟨4, 1, 5⟩⟩⟩] ∧
    (['"', 'a', 'b', '"'].drop 1).take 3 = ['a', 'b', '"'] :=
  ⟨rfl, rfl⟩

/-- C5 (amended): for **every** successfully lexed source, every token
in the output has a span faithful to the source: punctuation tokens and
unquoted-word `String` tokens round-trip exactly (`source[span]` is the
text that produced them), and `EndOfInput` carries a zero-length span at
the end of the source; tokens produced by the quoted-string lexer are
the exception the counterexample forces — a quoted `String` token's span
starts just past the opening quote (covering the content plus the
closing quote, not the whole literal), and an `Interp` token's span ends
just past the closing quote while its start sits on a mark the quoted
lexer left (the opening quote in the common case). -/
theorem claim_c5_amended (fuel : Nat) (source : List Char) (toks : List ShellToken)
    (h : lexChars fuel source = .ok toks) :
    ∀ t ∈ toks, spanFaithful source t := by
  unfold lexChars lexCharsWith at h
  split at h
  case _ tks lx2 heq =>
    simp only [Res.ok.injEq] at h
    subst h
    obtain ⟨htr, hidx, hmode, hpq, hlk, hnorm, htoks⟩ :=
      (lexSpans source fuel).1 ⟨Scanner.new source, .normal, punctTable⟩ [] tks lx2
        rfl ⟨rfl, Nat.zero_le _⟩ heq
    have hempty : lx2.scanner.chars = [] := hnorm rfl
    have hend : lx2.scanner.index = source.length := by
      obtain ⟨hd, hle⟩ := htr
      rw [hempty] at hd
      have hlen := List.length_drop lx2.scanner.index source
      rw [← hd] at hlen
      simp at hlen
      omega
    intro t ht2
    rcases htoks t ht2 with hin | hsf
    · simp at hin
    · show spanFaithfulAt source source.length t
      rw [← hend]
      exact hsf
  case _ e heq => exact absurd h (by simp)
  case _ heq => exact absurd h (by simp)
  case _ heq => exact absurd h (by simp)

/-- Witness for C5's amended theorem at the counterexample source
`"ab"`: both output tokens — the quoted `String` and `EndOfInput` — are
span-faithful. -/
theorem claim_c5_witness :
    spanFaithful ['"', 'a', 'b', '"'] ⟨.str "ab", ⟨⟨1, 1, 2⟩, ⟨4, 1, 5⟩⟩⟩ ∧
    spanFaithful ['"', 'a', 'b', '"'] ⟨.endOfInput, ⟨⟨4, 1, 5⟩, ⟨4, 1, 5⟩⟩⟩ :=
  ⟨claim_c5_amended 9 ['"', 'a', 'b', '"']
      [⟨.str "ab", ⟨⟨1, 1, 2⟩, ⟨4, 1, 5⟩⟩⟩, ⟨.endOfInput, ⟨⟨4, 1, 5⟩, ⟨4, 1, 5⟩⟩⟩] rfl
      ⟨.str "ab", ⟨⟨1, 1, 2⟩, ⟨4, 1, 5⟩⟩⟩ (by simp),
   claim_c5_amended 9 ['"', 'a', 'b', '"']
      [⟨.str "ab", ⟨⟨1, 1, 2⟩, ⟨4, 1, 5⟩⟩⟩, ⟨.endOfInput, ⟨⟨4, 1, 5⟩, ⟨4, 1, 5⟩⟩⟩] rfl
      ⟨.endOfInput, ⟨⟨4, 1, 5⟩, ⟨4, 1, 5⟩⟩⟩ (by simp)⟩

/-! ## C6: children of `Interp` tokens -/

/-- C6 counterexample: lexing `"{x}"` produces an outer `Interp` whose
second child — the brace sub-expression's `Interp` — contains an
`EndOfInput` child (the nested `tokenize` output keeps its sentinel),
refuting "no child is EndOfInput or any punctuation kind". -/
theorem claim_c6_counterexample :
    lexChars 99 ['"', '{', 'x', '}', '"'] =
      .ok [⟨.interp [⟨.str "", ⟨⟨1, 1, 2⟩, ⟨1, 1, 2⟩⟩⟩,
                     ⟨.interp [⟨.str "x", ⟨⟨2, 1, 3⟩, ⟨3, 1, 4⟩⟩⟩,
                               ⟨.endOfInput, ⟨⟨3, 1, 4⟩, ⟨3, 1, 4⟩⟩⟩],
                      ⟨⟨1, 1, 2⟩, ⟨4, 1, 5⟩⟩⟩],
            ⟨⟨0, 1, 1⟩, ⟨5, 1, 6⟩⟩⟩,
           ⟨.endOfInput, ⟨⟨5, 1, 6⟩, ⟨5, 1, 6⟩⟩⟩] ∧
    (⟨.endOfInput, ⟨⟨3, 1, 4⟩, ⟨3, 1, 4⟩⟩⟩ : ShellToken) ∈
      [⟨.str "x", ⟨⟨2, 1, 3⟩, ⟨3, 1, 4⟩⟩⟩,
       (⟨.endOfInput, ⟨⟨3, 1, 4⟩, ⟨3, 1, 4⟩⟩⟩ : ShellToken)] :=
  ⟨rfl, by simp⟩

/-- C6 (amended): for every successfully lexed input, every `Interp`
token in the output — at any nesting depth — has a non-empty children
list; the children of a quoted string's top-level `Interp` are `String`
and `Interp` tokens, but a brace sub-expression's `Interp` holds a full
nested token stream, which always ends in `EndOfInput` and may contain
punctuation. -/
theorem claim_c6_amended (fuel : Nat) (source : List Char) (toks : List ShellToken)
    (h : lexChars fuel source = .ok toks) : ∀ t ∈ toks, TokNE t := by
  unfold lexChars lexCharsWith at h
  split at h
  case _ tks lx' heq =>
    simp only [Res.ok.injEq] at h
    subst h
    have hpunct : PunctOk punctTable := by
      intro p hp ch
      simp only [punctTable, List.mem_cons, List.not_mem_nil, or_false] at hp
      rcases hp with rfl | rfl | rfl | rfl | rfl | rfl | rfl | rfl | rfl | rfl <;> simp
    exact ((lexNE fuel).1 _ _ hpunct (by simp) _ _ heq).1
  case _ => exact absurd h (by simp)
  case _ => exact absurd h (by simp)
  case _ => exact absurd h (by simp)

/-- Witness for C6's amended theorem: the outer `Interp` of `"{x}"`
satisfies the recursive nonemptiness invariant. -/
theorem claim_c6_witness :
    TokNE ⟨.interp [⟨.str "", ⟨⟨1, 1, 2⟩, ⟨1, 1, 2⟩⟩⟩,
                    ⟨.interp [⟨.str "x", ⟨⟨2, 1, 3⟩, ⟨3, 1, 4⟩⟩⟩,
                              ⟨.endOfInput, ⟨⟨3, 1, 4⟩, ⟨3, 1, 4⟩⟩⟩],
                     ⟨⟨1, 1, 2⟩, ⟨4, 1, 5⟩⟩⟩],
           ⟨⟨0, 1, 1⟩, ⟨5, 1, 6⟩⟩⟩ :=
  claim_c6_amended 99 ['"', '{', 'x', '}', '"']
    [⟨.interp [⟨.str "", ⟨⟨1, 1, 2⟩, ⟨1, 1, 2⟩⟩⟩,
               ⟨.interp [⟨.str "x", ⟨⟨2, 1, 3⟩, ⟨3, 1, 4⟩⟩⟩,
                         ⟨.endOfInput, ⟨⟨3, 1, 4⟩, ⟨3, 1, 4⟩⟩⟩],
                ⟨⟨1, 1, 2⟩, ⟨4, 1, 5⟩⟩⟩],
      ⟨⟨0, 1, 1⟩, ⟨5, 1, 6⟩⟩⟩,
     ⟨.endOfInput, ⟨⟨5, 1, 6⟩, ⟨5, 1, 6⟩⟩⟩] rfl _ (by simp)

/-! ## C10: parsed command heads and the stdout unwrap -/

/-- C10: every segment tree the parser produces satisfies the `goodB`
invariant — in particular every `Command` node's head is a `Text` or a
`StringInterp` — and evaluating such a tree, in any world, with any
capture flag, input and fuel, never reaches the `res.stdout.unwrap()`
panic modelled in `Cmd::execute` (`Res.panicked`): a textual head whose
code is `Some 0` always carries `Some` stdout (`textualStdout`), and
every other outcome is returned by `ensure_result!` before the unwrap. -/
theorem claim_c10_no_panic (tks : List ShellToken) (fuel : Nat) (seg : ShellSegment)
    (h : parseAll fuel tks = .ok seg) :
    seg.goodB = true ∧
    ∀ fuel2 capture input w, execute fuel2 seg capture input w ≠ .panicked := by
  have hg := (parseGood fuel).1 _ _ h
  exact ⟨hg, fun fuel2 capture input w => (execNoPanic fuel2).1 _ _ _ _ hg⟩

/-- Witness for C10 on the parse of `a b` (one command, one argument),
evaluated in the trivial world. -/
theorem claim_c10_witness :
    (ShellSegment.Command (.Text "a") (some [.Text "b"])).goodB = true ∧
    execute 9 (ShellSegment.Command (.Text "a") (some [.Text "b"])) true none wTriv ≠
      .panicked :=
  ⟨(claim_c10_no_panic [⟨.str "a", sp00⟩, ⟨.str "b", sp00⟩, ⟨.endOfInput, sp00⟩] 9
      (ShellSegment.Command (.Text "a") (some [.Text "b"])) rfl).1,
   (claim_c10_no_panic [⟨.str "a", sp00⟩, ⟨.str "b", sp00⟩, ⟨.endOfInput, sp00⟩] 9
      (ShellSegment.Command (.Text "a") (some [.Text "b"])) rfl).2 9 true none wTriv⟩

end Lumi
